import Mathlib

/-!
# Verification of the Photonix file service (backend/services/file.service.js)

A shallow embedding of the file-service module: the dimension resolver
(`MediaDimensionsManager`), the batched cover resolver (`findCoverPhotosBatchDb`),
the SQL-backed child listing (`getDirectChildrenFromDb`), the view-history
re-sort (`processSorting`), the HLS-readiness resolver (`processHlsStatus`),
the view-model builders, the directory-content orchestrator
(`getDirectoryContents`), the cover-cache invalidator (`invalidateCoverCache` /
`getAllParentPaths`), and the bounded concurrency limiter
(`createConcurrencyLimiter`).

Modelling conventions, used throughout:
* External collaborators (Redis, the SQLite databases, the filesystem, `sharp`
  / `ffprobe`, `Intl.Collator`, `encodeURIComponent`) are parameters of an
  environment record `Env`; their outcomes (success, failure, returned rows)
  are data of the environment.
* JavaScript numbers that hold integral epoch-millisecond timestamps or pixel
  sizes are modelled as `Int`; nullable columns as `Option Int`.
* SQLite `ORDER BY` is modelled as a stable merge sort by the lexicographic
  comparator built from the `ORDER BY` expressions, with SQL `NULL` modelled
  by `Option` (in SQLite `NULL` compares below every value, so `ASC` puts
  `NULL` first and `DESC` puts it last; `Option.none` is ordered accordingly).
* SQL `LIKE 'p/%'` on paths is modelled as a plain prefix match, and
  `COLLATE NOCASE` as comparison after ASCII lower-casing.
* Promise rejection / thrown exceptions that escape a function are modelled
  with `Except`; `try/catch` blocks that swallow errors become total code.
-/

/-! ## Ordering framework: SQL comparators -/

/-- Three-way comparison in a linear order. `cmpL` on `Int` and `Nat` is SQL
integer comparison; on `String` it is code-point lexicographic comparison,
which agrees with byte-wise comparison of the UTF-8 encodings (SQLite's
default `BINARY` collation). -/
def cmpL [LinearOrder α] (a b : α) : Ordering :=
  if a < b then .lt else if a = b then .eq else .gt

/-- Three-way lexicographic comparison of character lists, by code point.
Code-point lexicographic order on strings agrees with byte-wise comparison
of their UTF-8 encodings (SQLite's default `BINARY` collation). -/
def cmpCharList : List Char → List Char → Ordering
  | [], [] => .eq
  | [], _ :: _ => .lt
  | _ :: _, [] => .gt
  | a :: as, b :: bs => (cmpL a b).then (cmpCharList as bs)

/-- Three-way `BINARY` comparison of strings. -/
def cmpStr (s t : String) : Ordering :=
  cmpCharList s.data t.data

/-- Lift a comparator to `Option`, with `none` (SQL `NULL`) smallest:
in SQLite `NULL` sorts before every non-`NULL` value in `ASC` order. -/
def cmpOpt (c : α → α → Ordering) : Option α → Option α → Ordering
  | none, none => .eq
  | none, some _ => .lt
  | some _, none => .gt
  | some a, some b => c a b

/-- Comparator on a sort key extracted from a row. -/
def byKey (f : β → α) (c : α → α → Ordering) : β → β → Ordering :=
  fun a b => c (f a) (f b)

/-- `DESC` direction: the reverse of the `ASC` comparator. -/
def descC (c : β → β → Ordering) : β → β → Ordering :=
  fun a b => (c a b).swap

/-- Lexicographic composition of comparators, as in a multi-key
SQL `ORDER BY` list. -/
def lexC (c₁ c₂ : β → β → Ordering) : β → β → Ordering :=
  fun a b => (c₁ a b).then (c₂ a b)

/-- The laws a comparator needs for `ORDER BY` sorting to be well behaved:
antisymmetry of the three-way result, transitivity of strict comparison, and
congruence of ties. -/
structure LawfulCmp (c : α → α → Ordering) : Prop where
  swap_eq : ∀ a b, c a b = (c b a).swap
  lt_trans : ∀ a b x, c a b = .lt → c b x = .lt → c a x = .lt
  eq_left : ∀ a b x, c a b = .eq → c a x = c b x

theorem ordering_eq_swap {o p : Ordering} (h : p = o.swap) : o = p.swap := by
  cases o <;> cases p <;> simp_all [Ordering.swap]

theorem ordSwap_eq_iff {o p : Ordering} : o.swap = p ↔ o = p.swap := by
  cases o <;> cases p <;> decide

theorem then_lt_left {o : Ordering} : Ordering.lt.then o = .lt := rfl

theorem then_gt_left {o : Ordering} : Ordering.gt.then o = .gt := rfl

theorem then_eq_left {o : Ordering} : Ordering.eq.then o = o := rfl

theorem LawfulCmp.eq_right {c : α → α → Ordering} (h : LawfulCmp c)
    (a b x : α) (hbx : c b x = .eq) : c a x = c a b := by
  have h1 : c x b = .eq := by
    rw [h.swap_eq x b, hbx]
    rfl
  have h2 := h.eq_left x b a h1
  rw [h.swap_eq a x, h.swap_eq a b, h2]

theorem cmpL_lawful [LinearOrder α] : LawfulCmp (cmpL (α := α)) := by
  constructor
  · intro a b
    unfold cmpL
    rcases lt_trichotomy a b with h | h | h
    · simp [h, not_lt.mpr (le_of_lt h), (ne_of_lt h).symm, Ordering.swap]
    · simp [h, Ordering.swap]
    · simp [h, not_lt.mpr (le_of_lt h), (ne_of_lt h).symm, Ordering.swap]
  · intro a b x hab hbx
    unfold cmpL at *
    split at hab
    · split at hbx
      · simp [lt_trans (by assumption : a < b) (by assumption : b < x)]
      · split at hbx
        · simp_all
        · simp_all
    · split at hab
      · simp_all
      · simp_all
  · intro a b x hab
    unfold cmpL at *
    split at hab
    · simp_all
    · split at hab
      · simp_all
      · simp_all

theorem cmpOpt_lawful {c : α → α → Ordering} (h : LawfulCmp c) :
    LawfulCmp (cmpOpt c) := by
  constructor
  · intro a b
    cases a <;> cases b
    · rfl
    · rfl
    · rfl
    · exact h.swap_eq _ _
  · intro a b x hab hbx
    cases a <;> cases b <;> cases x <;> simp_all [cmpOpt]
    exact h.lt_trans _ _ _ hab hbx
  · intro a b x hab
    cases a <;> cases b <;> cases x <;> simp_all [cmpOpt]
    exact h.eq_left _ _ _ hab

theorem byKey_lawful {f : β → α} {c : α → α → Ordering} (h : LawfulCmp c) :
    LawfulCmp (byKey f c) := by
  constructor
  · intro a b
    exact h.swap_eq _ _
  · intro a b x hab hbx
    exact h.lt_trans _ _ _ hab hbx
  · intro a b x hab
    exact h.eq_left _ _ _ hab

theorem descC_lawful {c : β → β → Ordering} (h : LawfulCmp c) :
    LawfulCmp (descC c) := by
  constructor
  · intro a b
    simp only [descC]
    rw [h.swap_eq a b]
  · intro a b x hab hbx
    simp only [descC] at *
    have hab' : c b a = .lt := by
      rw [h.swap_eq b a]
      exact hab
    have hbx' : c x b = .lt := by
      rw [h.swap_eq x b]
      exact hbx
    have h3 := h.lt_trans x b a hbx' hab'
    rw [h.swap_eq a x, h3]
    rfl
  · intro a b x hab
    simp only [descC] at *
    have h1 : c a b = .eq := ordSwap_eq_iff.mp hab
    rw [h.eq_left a b x h1]

theorem lexC_lawful {c₁ c₂ : β → β → Ordering} (h₁ : LawfulCmp c₁)
    (h₂ : LawfulCmp c₂) : LawfulCmp (lexC c₁ c₂) := by
  constructor
  · intro a b
    simp only [lexC]
    rw [h₁.swap_eq a b, h₂.swap_eq a b]
    cases c₁ b a <;> cases c₂ b a <;> rfl
  · intro a b x hab hbx
    simp only [lexC] at *
    cases h1 : c₁ a b <;> rw [h1] at hab
    · cases h2 : c₁ b x <;> rw [h2] at hbx
      · rw [h₁.lt_trans a b x h1 h2]
        rfl
      · have h3 : c₁ a x = .lt := by
          rw [h₁.eq_right a b x h2, h1]
        rw [h3]
        rfl
      · rw [then_gt_left] at hbx
        exact absurd hbx (by decide)
    · rw [then_eq_left] at hab
      cases h2 : c₁ b x <;> rw [h2] at hbx
      · have h3 : c₁ a x = .lt := by
          rw [h₁.eq_left a b x h1, h2]
        rw [h3]
        rfl
      · rw [then_eq_left] at hbx
        have h3 : c₁ a x = .eq := by
          rw [h₁.eq_left a b x h1, h2]
        rw [h3, then_eq_left]
        exact h₂.lt_trans a b x hab hbx
      · rw [then_gt_left] at hbx
        exact absurd hbx (by decide)
    · rw [then_gt_left] at hab
      exact absurd hab (by decide)
  · intro a b x hab
    simp only [lexC] at *
    cases h1 : c₁ a b <;> rw [h1] at hab
    · rw [then_lt_left] at hab
      exact absurd hab (by decide)
    · rw [then_eq_left] at hab
      rw [h₁.eq_left a b x h1, h₂.eq_left a b x hab]
    · rw [then_gt_left] at hab
      exact absurd hab (by decide)

/-- The boolean "may precede" relation induced by a comparator; this is what
the stable sort uses. -/
def cmpLe (c : β → β → Ordering) (a b : β) : Bool :=
  c a b ≠ .gt

theorem cmpLe_iff {c : β → β → Ordering} {a b : β} :
    cmpLe c a b = true ↔ c a b ≠ .gt := by
  simp [cmpLe]

theorem cmpLe_trans {c : β → β → Ordering} (h : LawfulCmp c) :
    ∀ a b x, cmpLe c a b → cmpLe c b x → cmpLe c a x := by
  intro a b x hab hbx
  rw [cmpLe_iff] at *
  cases h1 : c a b
  · cases h2 : c b x
    · simp [h.lt_trans a b x h1 h2]
    · have := h.eq_right a b x h2
      rw [h1] at this
      simp [this]
    · exact absurd h2 hbx
  · cases h2 : c b x
    · have := h.eq_left a b x h1
      rw [h2] at this
      simp [this]
    · have := h.eq_left a b x h1
      rw [h2] at this
      simp [this]
    · exact absurd h2 hbx
  · exact absurd h1 hab

theorem cmpLe_total {c : β → β → Ordering} (h : LawfulCmp c) :
    ∀ a b, cmpLe c a b || cmpLe c b a := by
  intro a b
  rcases h1 : c a b with h1c | h1c | h1c
  · simp [cmpLe, h1]
  · simp [cmpLe, h1]
  · have : c b a = .lt := by
      have := ordering_eq_swap (h.swap_eq a b)
      rw [h1] at this
      rw [this]
      rfl
    simp [cmpLe, this]

theorem cmpL_eq_iff [LinearOrder α] {a b : α} : cmpL a b = .eq ↔ a = b := by
  unfold cmpL
  split
  · simp
    intro h
    subst h
    simp_all
  · split
    · simp_all
    · simp_all

theorem then_eq_iff {o p : Ordering} :
    o.then p = .eq ↔ o = .eq ∧ p = .eq := by
  cases o <;> cases p <;> decide

theorem cmpCharList_eq_iff : ∀ {a b : List Char}, cmpCharList a b = .eq ↔ a = b := by
  intro a
  induction a with
  | nil =>
      intro b
      cases b <;> simp [cmpCharList]
  | cons x xs ih =>
      intro b
      cases b with
      | nil => simp [cmpCharList]
      | cons y ys =>
          simp only [cmpCharList, then_eq_iff, cmpL_eq_iff, ih, List.cons.injEq]

theorem cmpCharList_lawful : LawfulCmp cmpCharList := by
  constructor
  · intro a
    induction a with
    | nil =>
        intro b
        cases b <;> rfl
    | cons x xs ih =>
        intro b
        cases b with
        | nil => rfl
        | cons y ys =>
            show (cmpL x y).then (cmpCharList xs ys) =
              ((cmpL y x).then (cmpCharList ys xs)).swap
            rw [cmpL_lawful.swap_eq x y, ih ys]
            cases cmpL y x <;> cases cmpCharList ys xs <;> rfl
  · intro a
    induction a with
    | nil =>
        intro b x hab hbx
        cases b with
        | nil =>
            cases x
            · exact hbx
            · rfl
        | cons y ys =>
            cases x
            · cases hbx
            · rfl
    | cons w ws ih =>
        intro b x hab hbx
        cases b with
        | nil => cases hab
        | cons y ys =>
            cases x with
            | nil => cases hbx
            | cons z zs =>
                simp only [cmpCharList] at *
                cases h1 : cmpL w y <;> rw [h1] at hab
                · cases h2 : cmpL y z <;> rw [h2] at hbx
                  · rw [cmpL_lawful.lt_trans w y z h1 h2]
                    rfl
                  · have h3 : cmpL w z = .lt := by
                      rw [cmpL_lawful.eq_right w y z h2, h1]
                    rw [h3]
                    rfl
                  · rw [then_gt_left] at hbx
                    exact absurd hbx (by decide)
                · have hyw : w = y := cmpL_eq_iff.mp h1
                  subst hyw
                  rw [then_eq_left] at hab
                  cases h2 : cmpL w z <;> rw [h2] at hbx
                  · rfl
                  · rw [then_eq_left] at hbx ⊢
                    exact ih ys zs hab hbx
                  · rw [then_gt_left] at hbx
                    exact absurd hbx (by decide)
                · rw [then_gt_left] at hab
                  exact absurd hab (by decide)
  · intro a b x hab
    have h1 : a = b := cmpCharList_eq_iff.mp hab
    subst h1
    rfl

theorem cmpStr_lawful : LawfulCmp cmpStr :=
  byKey_lawful (f := String.data) cmpCharList_lawful

/-- `ORDER BY` over a row list: stable sort by the comparator. SQLite does not
guarantee a particular order between rows the `ORDER BY` keys tie on; the
stable sort fixes one concrete, allowed outcome. -/
def sortRows (c : β → β → Ordering) (l : List β) : List β :=
  l.mergeSort (cmpLe c)

theorem sortRows_pairwise {c : β → β → Ordering} (h : LawfulCmp c)
    (l : List β) : (sortRows c l).Pairwise (fun a b => cmpLe c a b = true) :=
  List.sorted_mergeSort (cmpLe_trans h) (cmpLe_total h) l

theorem sortRows_perm (c : β → β → Ordering) (l : List β) :
    (sortRows c l).Perm l :=
  List.mergeSort_perm l (cmpLe c)

theorem sortRows_length (c : β → β → Ordering) (l : List β) :
    (sortRows c l).length = l.length :=
  List.length_mergeSort l

/-! ## Data model

`Item` is one row of the relational `items` table (path relative to the media
root, forward-slash separated, no leading slash; `mtime` in epoch millis;
`width`/`height` nullable). `Row` is one row of the union sub-query in
`getDirectChildrenFromDb` (`SELECT is_dir, name, path, mtime, width, height`).
-/

structure Item where
  path : String
  name : String
  type : String
  mtime : Int
  width : Option Int
  height : Option Int
deriving DecidableEq, Repr

structure Row where
  is_dir : Nat
  name : String
  path : String
  mtime : Int
  width : Option Int
  height : Option Int
deriving DecidableEq, Repr

/-- One row of the `album_covers` table. -/
structure AlbumCoverRow where
  album_path : String
  cover_path : String
  width : Option Int
  height : Option Int
  mtime : Option Int
deriving DecidableEq, Repr

/-- One row of the per-user `view_history` table. -/
structure ViewRow where
  user_id : String
  item_path : String
  viewed_at : Int
deriving DecidableEq, Repr

/-- A `{width, height}` record as produced by `JSON.parse` or by the probes:
each field is a number or absent/not-a-number (`none`), mirroring the
`typeof dimensions.width === 'number'` checks. -/
structure RawDims where
  width : Option Int
  height : Option Int
deriving DecidableEq, Repr

/-- What `redis.get` of a dimension cache key yields: no entry (or a falsy
string), a string that fails `JSON.parse`, or a parsed record. -/
inductive DimCacheVal
  | miss
  | malformed
  | parsed (d : RawDims)
deriving DecidableEq, Repr

/-- A cover-info record: absolute media path plus dimensions and mtime.
Entries read back from the cache may lack any of the numeric fields. -/
structure CoverInfo where
  path : String
  width : Option Int
  height : Option Int
  mtime : Option Int
deriving DecidableEq, Repr

/-- What `redis.mget` yields for one cover cache key: a miss (null or an
empty, falsy string), an unparseable/falsy-or-pathless JSON value, or a
parsed record (whose `path` the code still checks for truthiness). -/
inductive CoverCacheVal
  | miss
  | malformed
  | parsed (info : CoverInfo)
deriving DecidableEq, Repr

/-- The environment of external collaborators consumed by the file service:
configuration values, the three databases, Redis, the filesystem and the
media probes. Functions model queries; `Bool` fields model whether a
fallible external call succeeds. -/
structure Env where
  photosDir : String
  apiBase : String
  isPathSafe : String → Bool
  statIsDir : String → Bool
  statMtime : String → Option Int
  now : Int
  items : List Item
  albumCovers : List AlbumCoverRow
  albumCoversOk : Bool
  coverMgetOk : Bool
  coverCache : String → CoverCacheVal
  coverFallbackOk : String → Bool
  dimCache : String → DimCacheVal
  probe : String → Bool → Except Unit RawDims
  historyOk : Bool
  viewHistory : List ViewRow
  collator : String → String → Int
  useFsHlsCheck : Bool
  hlsFs : List String → Except Unit (List String)
  hlsDbOk : Bool
  processedVideos : List String
  homeShowSubdirs : Bool
  homeMaxDepth : Nat
  dayAgo : Int
  encodeURI : String → String

/-! ## Path helpers -/

/-- ASCII-only case folding of one character, as both JS `toLowerCase` on
ASCII and SQLite `NOCASE` do (`Char.toLower` only folds `A`–`Z`). -/
def strLower (s : String) : String :=
  String.mk (s.data.map Char.toLower)

/-- `suffix` test on the underlying character lists. -/
def strEndsWith (s suf : String) : Bool :=
  suf.data.isSuffixOf s.data

/-- prefix test on the underlying character lists. -/
def strIsPrefixOf (p s : String) : Bool :=
  p.data.isPrefixOf s.data

/-- Drop the first `n` characters. -/
def strDrop (s : String) (n : Nat) : String :=
  String.mk (s.data.drop n)

/-- `split('/')` on the underlying character list. -/
def splitSlashAux : List Char → List Char → List String
  | [], acc => [String.mk acc.reverse]
  | ch :: rest, acc =>
      if ch = '/' then String.mk acc.reverse :: splitSlashAux rest []
      else splitSlashAux rest (ch :: acc)

/-- `p.split('/')` (also `String.prototype.split(path.sep)` on Linux). -/
def splitSlash (s : String) : List String :=
  splitSlashAux s.data []

/-- `(rel || '').replace(/\\/g, '/')`. -/
def toSlash (s : String) : String :=
  String.mk (s.data.map (fun ch => if ch = '\\' then '/' else ch))

/-- SQL `length(path) - length(replace(path, '/', ''))`: the number of `/`
separators, i.e. the depth of a relative path. -/
def countSlash (p : String) : Nat :=
  (p.toList.filter (fun ch => ch = '/')).length

/-- `path.join(PHOTOS_DIR, rel)` for a relative `rel` with no leading slash. -/
def pathJoin (root rel : String) : String :=
  if rel = "" then root else root ++ "/" ++ rel

/-- `path.basename` of a forward-slash relative path. -/
def basenameStr (p : String) : String :=
  (splitSlash p).getLastD p

/-- The direct-children membership test of `getDirectChildrenFromDb`:
`instr(path,'/') = 0` at the root, and
`path LIKE pfx || '/%' AND instr(substr(path, length(pfx)+2), '/') = 0`
otherwise (`LIKE` modelled as a prefix match). -/
def isDirectChild (pfx p : String) : Bool :=
  if pfx = "" then !(p.data.contains '/')
  else strIsPrefixOf (pfx ++ "/") p &&
    !((strDrop p (pfx.length + 1)).data.contains '/')

/-! ## Sort/query planner: `getDirectChildrenFromDb` -/

/-- `SELECT 1/0 AS is_dir, i.name, i.path, i.mtime, i.width, i.height`. -/
def rowOf (d : Nat) (i : Item) : Row :=
  { is_dir := d, name := i.name, path := i.path, mtime := i.mtime,
    width := i.width, height := i.height }

/-- `ORDER BY is_dir DESC`. -/
def cmpIsDirDesc : Row → Row → Ordering :=
  descC (byKey (fun r => r.is_dir) cmpL)

/-- `name COLLATE NOCASE ASC` (ASCII case folding, then binary order). -/
def cmpNameNocaseAsc : Row → Row → Ordering :=
  byKey (fun r => strLower r.name) cmpStr

/-- `name COLLATE NOCASE DESC`. -/
def cmpNameNocaseDesc : Row → Row → Ordering :=
  descC cmpNameNocaseAsc

/-- `mtime ASC`. -/
def cmpMtimeAsc : Row → Row → Ordering :=
  byKey (fun r => r.mtime) cmpL

/-- `mtime DESC`. -/
def cmpMtimeDesc : Row → Row → Ordering :=
  descC cmpMtimeAsc

/-- The home-recursive depth bucket
`CASE WHEN depth = 0 THEN 0 WHEN depth = 1 THEN 1 WHEN depth = 2 THEN 2 ELSE 3 END`. -/
def depthBucket (r : Row) : Nat :=
  min (countSlash r.path) 3

/-- Depth bucket, ascending. -/
def cmpDepthAsc : Row → Row → Ordering :=
  byKey depthBucket cmpL

/-- `CASE WHEN is_dir=1 THEN CASE WHEN mtime > dayAgo THEN 0 ELSE 1 END END`
(`NULL` for media rows). -/
def smartRecencyBucket (dayAgo : Int) (r : Row) : Option Int :=
  if r.is_dir = 1 then (if r.mtime > dayAgo then some 0 else some 1) else none

/-- `CASE WHEN is_dir=1 AND mtime > dayAgo THEN mtime END`. -/
def smartRecentMtime (dayAgo : Int) (r : Row) : Option Int :=
  if r.is_dir = 1 ∧ r.mtime > dayAgo then some r.mtime else none

/-- `CASE WHEN is_dir=1 AND mtime <= dayAgo THEN name END COLLATE NOCASE`. -/
def smartOldName (dayAgo : Int) (r : Row) : Option String :=
  if r.is_dir = 1 ∧ r.mtime ≤ dayAgo then some (strLower r.name) else none

/-- `CASE WHEN is_dir=0 THEN name END COLLATE NOCASE`. -/
def smartMediaName (r : Row) : Option String :=
  if r.is_dir = 0 then some (strLower r.name) else none

/-- The four smart-sort keys that follow `is_dir DESC`: recency bucket `ASC`,
recent mtime `DESC`, stale-directory name `ASC`, media name `ASC`. -/
def cmpSmartTail (dayAgo : Int) : Row → Row → Ordering :=
  lexC (byKey (smartRecencyBucket dayAgo) (cmpOpt cmpL))
    (lexC (descC (byKey (smartRecentMtime dayAgo) (cmpOpt cmpL)))
      (lexC (byKey (smartOldName dayAgo) (cmpOpt cmpStr))
        (byKey smartMediaName (cmpOpt cmpStr))))

/-- The smart `ORDER BY` at the root without home-recursive mode. -/
def cmpSmartRoot (dayAgo : Int) : Row → Row → Ordering :=
  lexC cmpIsDirDesc (cmpSmartTail dayAgo)

/-- The smart `ORDER BY` in home-recursive mode: depth bucket first. -/
def cmpSmartHome (dayAgo : Int) : Row → Row → Ordering :=
  lexC cmpDepthAsc (lexC cmpIsDirDesc (cmpSmartTail dayAgo))

/-- The comparator of the `ORDER BY` clause built by `getDirectChildrenFromDb`
for each sort mode. `none` encodes that the generated SQL is not a valid
SQLite statement: the `name_asc` home-recursive branch interpolates `//`
pseudo-comments into the `ORDER BY` string (SQLite comments are `--` and
`/* */`), so `dbAll` rejects with a syntax error. The JS `switch` falls
through to smart for every unknown mode string. -/
def orderCmpFor (sort : String) (homeMode isRoot : Bool) (dayAgo : Int) :
    Option (Row → Row → Ordering) :=
  match sort with
  | "name_asc" =>
      if homeMode then none
      else some (lexC cmpIsDirDesc cmpNameNocaseAsc)
  | "name_desc" =>
      if homeMode then some (lexC cmpDepthAsc (lexC cmpIsDirDesc cmpNameNocaseDesc))
      else some (lexC cmpIsDirDesc cmpNameNocaseDesc)
  | "mtime_asc" => some (lexC cmpIsDirDesc cmpMtimeAsc)
  | "mtime_desc" => some (lexC cmpIsDirDesc cmpMtimeDesc)
  | "viewed_desc" => some (lexC cmpIsDirDesc cmpNameNocaseAsc)
  | _ =>
      some (if homeMode then cmpSmartHome dayAgo
            else if isRoot then cmpSmartRoot dayAgo
            else lexC cmpIsDirDesc cmpNameNocaseAsc)

/-- A rejected database call (`dbAll` throwing). -/
inductive DbErr
  | sqlInvalid
deriving DecidableEq, Repr

/-- The `WHERE` clause of `getDirectChildrenFromDb` as a predicate: in
home-recursive mode (`!prefix && HOME_SHOW_SUBDIRS`), albums within the
configured depth (the generated `OR` of per-depth slash-count conditions);
otherwise direct children of the prefix. -/
def childWhere (env : Env) (pfx : String) : Item → Bool :=
  if pfx = "" && env.homeShowSubdirs then
    fun i => decide (countSlash i.path ≤ env.homeMaxDepth) && (i.type == "album")
  else
    fun i => isDirectChild pfx i.path

/-- The count query:
`SELECT COUNT(1) FROM items WHERE (where) AND type IN ('album','photo','video')`. -/
def qualifyingCount (env : Env) (pfx : String) : Nat :=
  (env.items.filter (fun i => childWhere env pfx i &&
    (i.type == "album" || i.type == "photo" || i.type == "video"))).length

/-- The `albums UNION ALL media` sub-query rows (in table order, albums
first, as the union emits them before `ORDER BY`). -/
def childUnionRows (env : Env) (pfx : String) : List Row :=
  (env.items.filter
      (fun i => i.type == "album" && childWhere env pfx i)).map (rowOf 1) ++
  (env.items.filter
      (fun i => (i.type == "photo" || i.type == "video") &&
        childWhere env pfx i)).map (rowOf 0)

/-- `getDirectChildrenFromDb(relativePathPrefix, userId, sort, limit, offset)`.
Counts all qualifying children, then pages the
`albums UNION ALL media ORDER BY … LIMIT ? OFFSET ?` query. The `userId`
argument of the JS function is never read there (the view-history re-sort
happens later in `processSorting`), so it is omitted here. In home-recursive
mode the `WHERE` clause restricts to albums within the configured depth,
which also empties the media sub-select. -/
def getDirectChildrenFromDb (env : Env) (relPathPfx : String) (sort : String)
    (limit offset : Nat) : Except DbErr (Nat × List Row) :=
  let pfx := toSlash relPathPfx
  let homeMode := pfx = "" && env.homeShowSubdirs
  match orderCmpFor sort homeMode (pfx = "") env.dayAgo with
  | none => .error .sqlInvalid
  | some c =>
      .ok (qualifyingCount env pfx,
        ((sortRows c (childUnionRows env pfx)).drop offset).take limit)

/-! ## Dimension resolver: `MediaDimensionsManager` -/

/-- `isValidDbDimensions`: both fields are numbers and strictly positive. -/
def isValidDbDimensions (d : RawDims) : Bool :=
  match d.width, d.height with
  | some w, some h => decide (w > 0) && decide (h > 0)
  | _, _ => false

/-- `extractDimensionsFromDb`: `null` guard, then the validity check
(the batched hit counter is telemetry only and is not modelled). -/
def extractDimensionsFromDb (dbDims : Option RawDims) : Option RawDims :=
  match dbDims with
  | none => none
  | some d => if isValidDbDimensions d then some d else none

/-- `generateCacheKey`: `` `dim:${entryRelativePath}:${mtime}` ``. -/
def generateCacheKey (entryRelativePath : String) (mtime : Int) : String :=
  "dim:" ++ entryRelativePath ++ ":" ++ toString mtime

/-- `getDimensionsFromCache`: a missing entry, an entry that fails
`JSON.parse` (the catch branch) and a structurally invalid entry all come
back as `none` (a miss), never as an error. -/
def getDimensionsFromCache (env : Env) (cacheKey : String) : Option RawDims :=
  match env.dimCache cacheKey with
  | .miss => none
  | .malformed => none
  | .parsed d => if isValidDbDimensions d then some d else none

/-- `getDefaultDimensions`: the fixed fallback. -/
def getDefaultDimensions : RawDims :=
  { width := some 1920, height := some 1080 }

/-- The outcome of one `getMediaDimensions` call: the returned record, the
cache write it performed (key and value), and whether the probe ran. -/
structure DimResult where
  dims : RawDims
  cacheWrite : Option (String × RawDims)
  probeRan : Bool
deriving DecidableEq, Repr

/-- `MediaDimensionsManager.getMediaDimensions`: index tier, then cache tier,
then the probe (run inside the concurrency limiter); a probe success is
written to the cache (a failing `redis.set` is caught inside
`cacheDimensions`); a probe failure falls back to the fixed default. The
function is total: no branch throws. -/
def getMediaDimensions (env : Env) (entryRelativePath : String)
    (fullAbsPath : String) (isVideo : Bool) (mtime : Int)
    (dbDims : Option RawDims) : DimResult :=
  match extractDimensionsFromDb dbDims with
  | some d => { dims := d, cacheWrite := none, probeRan := false }
  | none =>
    let cacheKey := generateCacheKey entryRelativePath mtime
    match getDimensionsFromCache env cacheKey with
    | some d => { dims := d, cacheWrite := none, probeRan := false }
    | none =>
      match env.probe fullAbsPath isVideo with
      | .ok d => { dims := d, cacheWrite := some (cacheKey, d), probeRan := true }
      | .error _ => { dims := getDefaultDimensions, cacheWrite := none, probeRan := true }

/-! ## Cover resolver: `findCoverPhotosBatchDb` -/

/-- The cover map (`coversMap`), keyed by the album's absolute path. -/
def mapHas (m : List (String × CoverInfo)) (k : String) : Bool :=
  m.any (fun p => p.1 == k)

def mapSet (m : List (String × CoverInfo)) (k : String) (v : CoverInfo) :
    List (String × CoverInfo) :=
  if mapHas m k then m.map (fun p => if p.1 == k then (k, v) else p)
  else m ++ [(k, v)]

def mapGet (m : List (String × CoverInfo)) (k : String) : Option CoverInfo :=
  (m.find? (fun p => p.1 == k)).map (fun p => p.2)

/-- The Redis key `` `cover_info:/${rel}` ``. -/
def coverKeyFor (rel : String) : String :=
  "cover_info:/" ++ rel

/-- JS `x || d` for a nullable number. -/
def orFalsyI (o : Option Int) (d : Int) : Int :=
  match o with
  | none => d
  | some v => if v = 0 then d else v

/-- JS `x || d` for a number. -/
def orFalsyInt (v d : Int) : Int :=
  if v = 0 then d else v

/-- Path normalisation and safety filtering at the head of
`findCoverPhotosBatchDb`. -/
def coverSafeRels (env : Env) (relativeDirs : List String) : List String :=
  (relativeDirs.map toSlash).filter env.isPathSafe

/-- What the `redis.mget` batch read yields for one album: a failed `mget`
makes every entry a miss (the catch fills the array with `null`). -/
def coverCacheResult (env : Env) (rel : String) : CoverCacheVal :=
  if env.coverMgetOk then env.coverCache (coverKeyFor rel) else .miss

/-- Cache tier: accept entries that are truthy, parse, and have a truthy
`path`; everything else goes to `missing` in input order. -/
def coverCacheTier (env : Env) (rels : List String) :
    List (String × CoverInfo) × List String :=
  rels.foldl
    (fun acc rel =>
      match coverCacheResult env rel with
      | .parsed info =>
          if info.path ≠ "" then
            (mapSet acc.1 (pathJoin env.photosDir rel) info, acc.2)
          else (acc.1, acc.2 ++ [rel])
      | _ => (acc.1, acc.2 ++ [rel]))
    ([], [])

/-- Index tier: the batched `SELECT … FROM album_covers WHERE album_path IN …`
(the `BATCH`-sized loop partitions the `IN` list, which does not change the
returned row set, so it is modelled as one query). Each row is written into
the map and back to Redis. A thrown batch read (`albumCoversOk = false`)
is caught after zero rows. -/
def coverTableTier (env : Env) (missing : List String)
    (m : List (String × CoverInfo)) :
    List (String × CoverInfo) × List (String × CoverInfo) :=
  if env.albumCoversOk then
    (env.albumCovers.filter (fun r => missing.contains r.album_path)).foldl
      (fun acc r =>
        let info : CoverInfo :=
          { path := pathJoin env.photosDir r.cover_path,
            width := some (orFalsyI r.width 1),
            height := some (orFalsyI r.height 1),
            mtime := some (orFalsyI r.mtime env.now) }
        (mapSet acc.1 (pathJoin env.photosDir r.album_path) info,
         acc.2 ++ [(coverKeyFor r.album_path, info)]))
      (m, [])
  else (m, [])

/-- Item mtime, descending (`ORDER BY mtime DESC`). -/
def cmpItemMtimeDesc : Item → Item → Ordering :=
  descC (byKey (fun i : Item => i.mtime) cmpL)

/-- The per-album fallback query:
`SELECT path, width, height, mtime FROM items WHERE type IN ('photo','video')
AND path LIKE ? ORDER BY mtime DESC LIMIT 1` with parameter
`rel ? rel + '/%' : '%'`. -/
def coverFallbackQuery (env : Env) (rel : String) : Option Item :=
  let matchesLike : Item → Bool := fun i =>
    (i.type == "photo" || i.type == "video") &&
    (if rel = "" then true else strIsPrefixOf (rel ++ "/") i.path)
  (sortRows cmpItemMtimeDesc (env.items.filter matchesLike)).head?

/-- The cover info built from a fallback row:
`{path: abs, width: r.width || 1, height: r.height || 1,
mtime: r.mtime || Date.now()}`. -/
def coverInfoOfItem (env : Env) (r : Item) : CoverInfo :=
  { path := pathJoin env.photosDir r.path,
    width := some (orFalsyI r.width 1),
    height := some (orFalsyI r.height 1),
    mtime := some (orFalsyInt r.mtime env.now) }

/-- One iteration of the fallback loop over a still-missing album `rel`:
a thrown per-album query (`coverFallbackOk rel = false`) is caught and
skips the album; an empty result writes nothing; a row is written into the
map and its Redis `set` is recorded. -/
def coverFallbackStep (env : Env)
    (acc : List (String × CoverInfo) × List (String × CoverInfo))
    (rel : String) :
    List (String × CoverInfo) × List (String × CoverInfo) :=
  if env.coverFallbackOk rel then
    match coverFallbackQuery env rel with
    | some r =>
        (mapSet acc.1 (pathJoin env.photosDir rel) (coverInfoOfItem env r),
         acc.2 ++ [(coverKeyFor rel, coverInfoOfItem env r)])
    | none => acc
  else acc

/-- Fallback tier: one query per still-missing album, in order. The second
component collects this tier's Redis `set` calls. -/
def coverFallbackTier (env : Env) (stillMissing : List String)
    (m : List (String × CoverInfo)) :
    List (String × CoverInfo) × List (String × CoverInfo) :=
  stillMissing.foldl (coverFallbackStep env) (m, [])

/-- The effects of one `findCoverPhotosBatchDb` call: the returned map, the
Redis `set` calls it issued, and the `album_covers` writes it issued (the
source only ever `SELECT`s from `album_covers`; no branch inserts or
updates it, so this list is built empty). -/
structure CoverBatchResult where
  covers : List (String × CoverInfo)
  cacheWrites : List (String × CoverInfo)
  tableWrites : List (String × CoverInfo)
deriving DecidableEq, Repr

/-- The state after the cache tier and the `album_covers` tier: the
resolved map with that tier's Redis writes, and the cache tier's `missing`
list. -/
def coverTier12 (env : Env) (relativeDirs : List String) :
    (List (String × CoverInfo) × List (String × CoverInfo)) × List String :=
  let safeRels := coverSafeRels env relativeDirs
  let step1 := coverCacheTier env safeRels
  (coverTableTier env step1.2 step1.1, step1.2)

/-- `stillMissing`: the albums unresolved after both the cache tier and the
`album_covers` table lookup. -/
def coverStillMissing (env : Env) (relativeDirs : List String) :
    List String :=
  (coverTier12 env relativeDirs).2.filter
    (fun rel =>
      !(mapHas (coverTier12 env relativeDirs).1.1 (pathJoin env.photosDir rel)))

/-- `findCoverPhotosBatchDb(relativeDirs)`. -/
def findCoverPhotosBatchDb (env : Env) (relativeDirs : List String) :
    CoverBatchResult :=
  let t12 := coverTier12 env relativeDirs
  let step3 := coverFallbackTier env (coverStillMissing env relativeDirs)
    t12.1.1
  { covers := step3.1, cacheWrites := t12.1.2 ++ step3.2, tableWrites := [] }

/-! ## View-history re-sort: `processSorting` -/

/-- `MAX(viewed_at)` per item path for one user, with `|| 0` for albums
that have no recorded view. -/
def lastViewedOf (env : Env) (uid p : String) : Int :=
  (((env.viewHistory.filter
      (fun v => v.user_id == uid && v.item_path == p)).map
        (fun v => v.viewed_at)).max?).getD 0

/-- The three-way comparator induced by the numeric `Intl.Collator.compare`
result (the collator itself is an external collaborator, a parameter of the
environment). -/
def collCmp (coll : String → String → Int) (s t : String) : Ordering :=
  if coll s t < 0 then .lt else if coll s t = 0 then .eq else .gt

/-- The album comparator
`(lastViewed b - lastViewed a) || collator.compare(a.name, b.name)`:
last-viewed descending, name as tie break. -/
def cmpViewedAlbums (env : Env) (uid : String) : Row → Row → Ordering :=
  lexC (descC (byKey (fun r : Row => lastViewedOf env uid r.path) cmpL))
    (byKey (fun r : Row => r.name) (collCmp env.collator))

/-- The media comparator `collator.compare(a.name, b.name)`. -/
def cmpCollName (env : Env) : Row → Row → Ordering :=
  byKey (fun r : Row => r.name) (collCmp env.collator)

/-- `processSorting(rows, sort, relativePathPrefix, userId)`: the secondary
re-sort by per-user view history. Skipped (returning `rows` unchanged) when
the sort mode does not call for it, when there is no truthy user id, when
the page holds no album rows, or when the `view_history` query throws
(caught: `historyOk = false`). JS `Array.prototype.sort` is stable, matching
`sortRows`. -/
def processSorting (env : Env) (rows : List Row) (sort : String)
    (relPathPfx : String) (userId : Option String) : List Row :=
  let isSubdirSmart := sort == "smart" && decide (0 < relPathPfx.length)
  let needViewedSort := sort == "viewed_desc" || isSubdirSmart
  let uid := userId.getD ""
  if !needViewedSort || uid == "" then rows
  else
    let albumRows := rows.filter (fun r => r.is_dir == 1)
    if albumRows.isEmpty then rows
    else if !env.historyOk then rows
    else
      let albumsSorted := sortRows (cmpViewedAlbums env uid) albumRows
      let mediaSorted := sortRows (cmpCollName env)
        (rows.filter (fun r => r.is_dir == 0))
      albumsSorted ++ mediaSorted

/-! ## HLS-readiness resolver: `processHlsStatus` -/

/-- The case-insensitive extension test `/\.(mp4|webm|mov)$/i`. -/
def isVideoName (n : String) : Bool :=
  let l := strLower n
  strEndsWith l ".mp4" || strEndsWith l ".webm" || strEndsWith l ".mov"

/-- The filter `!r.is_dir && /\.(mp4|webm|mov)$/i.test(r.name)` that selects
which rows get an HLS-readiness check. It only looks at `is_dir` and the
file name, never at the index's `type` column. -/
def hlsVideoPred (r : Row) : Bool :=
  (r.is_dir == 0) && isVideoName r.name

/-- `fallbackToDatabaseCheck`:
`SELECT path FROM processed_videos WHERE path IN (…)`; a thrown query is
caught and leaves the ready set empty. -/
def fallbackToDatabaseCheckSet (env : Env) (videoPaths : List String) :
    List String :=
  if env.hlsDbOk then
    env.processedVideos.filter (fun p => videoPaths.contains p)
  else []

/-- `processHlsStatus(rows)`: the set (as a list) of relative paths with a
ready HLS rendition. Filesystem-backed batch check when enabled, database
fallback otherwise or on failure; never throws. -/
def processHlsStatus (env : Env) (rows : List Row) : List String :=
  let videoRows := rows.filter hlsVideoPred
  if videoRows.isEmpty then []
  else
    let videoPaths := videoRows.map (fun r => r.path)
    if env.useFsHlsCheck then
      match env.hlsFs videoPaths with
      | .ok ready => ready
      | .error _ => fallbackToDatabaseCheckSet env videoPaths
    else fallbackToDatabaseCheckSet env videoPaths

/-! ## View-model builders -/

structure AlbumVM where
  name : String
  path : String
  coverUrl : String
  mtime : Int
  coverWidth : Option Int
  coverHeight : Option Int
deriving DecidableEq, Repr

structure MediaVM where
  originalUrl : String
  thumbnailUrl : String
  width : Option Int
  height : Option Int
  mtime : Int
  hlsReady : Bool
deriving DecidableEq, Repr

/-- One entry of the returned `items` array: `{type, data}`. -/
inductive ViewItem
  | album (a : AlbumVM)
  | media (t : String) (m : MediaVM)
deriving DecidableEq, Repr

/-- The `type` field of the view-model. -/
def ViewItem.itemType : ViewItem → String
  | .album _ => "album"
  | .media t _ => t

/-- The `hlsReady` flag of a media view-model (`false` for albums). -/
def ViewItem.hlsFlag : ViewItem → Bool
  | .album _ => false
  | .media _ m => m.hlsReady

/-- `path.relative(PHOTOS_DIR, p)` for `p` under the media root. -/
def relativeTo (root p : String) : String :=
  if strIsPrefixOf (root ++ "/") p then strDrop p (root.length + 1) else p

/-- `buildAlbumItem(row, coversMap, entryRelativePath)`. The placeholder
cover URL and 1×1 dimensions apply when the map has no truthy cover. -/
def buildAlbumItem (env : Env) (coversMap : List (String × CoverInfo))
    (row : Row) : ViewItem :=
  let fullAbs := pathJoin env.photosDir row.path
  let name := if row.name = "" then basenameStr row.path else row.name
  match mapGet coversMap fullAbs with
  | some info =>
      if info.path ≠ "" then
        let relCover := relativeTo env.photosDir info.path
        let coverMtime : Int :=
          match info.mtime with
          | some m => m
          | none => (env.statMtime info.path).getD env.now
        .album { name := name, path := row.path,
                 coverUrl := env.apiBase ++ "/api/thumbnail?path=" ++
                   env.encodeURI relCover ++ "&v=" ++ toString coverMtime,
                 mtime := row.mtime, coverWidth := info.width,
                 coverHeight := info.height }
      else
        .album { name := name, path := row.path,
                 coverUrl := "data:image/svg+xml,...", mtime := row.mtime,
                 coverWidth := some 1, coverHeight := some 1 }
  | none =>
      .album { name := name, path := row.path,
               coverUrl := "data:image/svg+xml,...", mtime := row.mtime,
               coverWidth := some 1, coverHeight := some 1 }

/-- `buildMediaItem(row, hlsReadySet, entryRelativePath, fullAbsPath)`:
the video/photo decision is `/\.(mp4|webm|mov)$/i.test(row.name || basename)`,
a pure extension test. -/
def buildMediaItem (env : Env) (hlsReadySet : List String) (row : Row) :
    ViewItem :=
  let entryRel := row.path
  let fullAbs := pathJoin env.photosDir entryRel
  let nameForTest := if row.name = "" then basenameStr entryRel else row.name
  let isVideo := isVideoName nameForTest
  let mtime : Int :=
    if row.mtime ≠ 0 then row.mtime else (env.statMtime fullAbs).getD env.now
  let dbDimensions : RawDims := { width := row.width, height := row.height }
  let dims :=
    (getMediaDimensions env entryRel fullAbs isVideo mtime (some dbDimensions)).dims
  .media (if isVideo then "video" else "photo")
    { originalUrl := "/static/" ++
        String.intercalate "/" ((splitSlash entryRel).map env.encodeURI),
      thumbnailUrl := env.apiBase ++ "/api/thumbnail?path=" ++
        env.encodeURI entryRel ++ "&v=" ++ toString mtime,
      width := dims.width, height := dims.height, mtime := mtime,
      hlsReady := if isVideo then hlsReadySet.contains entryRel else false }

/-- `buildItems(rows, hlsReadySet, coversMap)`. -/
def buildItems (env : Env) (rows : List Row) (hlsSet : List String)
    (coversMap : List (String × CoverInfo)) : List ViewItem :=
  rows.map (fun row =>
    if row.is_dir == 1 then buildAlbumItem env coversMap row
    else buildMediaItem env hlsSet row)

/-! ## Directory content orchestrator: `getDirectoryContents` -/

/-- A request-level failure of `getDirectoryContents`. -/
inductive ListErr
  | unsafePath (p : String)
  | notFound (p : String)
  | db (e : DbErr)
deriving DecidableEq, Repr

structure ListingResult where
  items : List ViewItem
  totalPages : Nat
  totalResults : Nat
deriving DecidableEq, Repr

/-- `validateDirectory(relativePathPrefix)`: `fs.stat` (any failure caught to
`null`) plus `isDirectory()`; an absent root yields `exists: false`, an
absent non-root prefix throws. -/
def validateDirectory (env : Env) (relPathPfx : String) : Except ListErr Bool :=
  if env.statIsDir (pathJoin env.photosDir relPathPfx) then .ok true
  else if relPathPfx = "" then .ok false
  else .error (.notFound relPathPfx)

/-- `processAlbumCovers(rows)`: resolve covers for the album rows. -/
def processAlbumCovers (env : Env) (rows : List Row) :
    List (String × CoverInfo) :=
  (findCoverPhotosBatchDb env
    ((rows.filter (fun r => r.is_dir == 1)).map (fun r => r.path))).covers

/-- `getDirectoryContents(relativePathPrefix, page, limit, userId, sort)`. -/
def getDirectoryContents (env : Env) (relPathPfx : String) (page limit : Nat)
    (userId : Option String) (sort : String) : Except ListErr ListingResult :=
  if !env.isPathSafe relPathPfx then .error (.unsafePath relPathPfx)
  else
    match validateDirectory env relPathPfx with
    | .error e => .error e
    | .ok false => .ok { items := [], totalPages := 1, totalResults := 0 }
    | .ok true =>
      let offset := (page - 1) * limit
      match getDirectChildrenFromDb env relPathPfx sort limit offset with
      | .error e => .error (.db e)
      | .ok (totalResults, rows) =>
        if totalResults = 0 ∨ rows.isEmpty then
          .ok { items := [], totalPages := 1, totalResults := 0 }
        else
          let rowsEffective := processSorting env rows sort relPathPfx userId
          let hlsSet := processHlsStatus env rowsEffective
          let coversMap := processAlbumCovers env rowsEffective
          let items := buildItems env rowsEffective hlsSet coversMap
          .ok { items := items,
                totalPages :=
                  if (totalResults + limit - 1) / limit = 0 then 1
                  else (totalResults + limit - 1) / limit,
                totalResults := totalResults }

/-- The `ORDER BY` clause built by the `name_asc` branch under home-recursive
mode, verbatim from the source template literal (including its `//`
annotations). SQLite comments are `--` and `/* */` only, so the `//` after
`THEN 0` parses as two division operators and the statement is rejected;
`orderCmpFor` returns `none` for this combination accordingly. -/
def nameAscHomeOrderBy : String :=
  "ORDER BY\n" ++
  "                    CASE\n" ++
  "                        WHEN length(path) - length(replace(path, '/', '')) = 0 THEN 0  // 根目录项目\n" ++
  "                        WHEN length(path) - length(replace(path, '/', '')) = 1 THEN 1  // 1级子目录\n" ++
  "                        WHEN length(path) - length(replace(path, '/', '')) = 2 THEN 2  // 2级子目录\n" ++
  "                        ELSE 3\n" ++
  "                    END,\n" ++
  "                    is_dir DESC,\n" ++
  "                    name COLLATE NOCASE ASC"

/-- Whether a SQL fragment contains the token `//`, which no SQLite clause
outside a quoted literal may contain. -/
def containsSlashSlash (s : String) : Bool :=
  decide (['/', '/'] <:+: s.toList)

/-! ## Cache invalidator: `invalidateCoverCache` / `getAllParentPaths`

For the invalidator, a filesystem path under the media root is modelled
structurally as its non-empty list of path segments below the root
(`PHOTOS_DIR/a/b/c.jpg` is `["a","b","c.jpg"]`); `path.dirname` is
`List.dropLast`, the loop guard `currentPath !== PHOTOS_DIR`
is `segments ≠ []`, and `currentPath.startsWith(PHOTOS_DIR)` holds for every
suffix-truncated path under the root. `p.replace(PHOTOS_DIR, '')` is the
`/`-joined segment list with a leading slash. -/

/-- The `while` loop of `getAllParentPaths`, with explicit fuel: collect the
current path, then recurse on its `path.dirname` (= `List.dropLast`),
stopping at the media root (`[]`). Each iteration shortens the path by one
segment, so `q.length` units of fuel always suffice (`parentsChain` below
supplies exactly that), keeping the definition structurally recursive. -/
def parentsChainFuel : Nat → List String → List (List String)
  | 0, _ => []
  | _ + 1, [] => []
  | fuel + 1, a :: l => (a :: l) :: parentsChainFuel fuel (a :: l).dropLast

/-- The loop of `getAllParentPaths` from a starting path `q`. -/
def parentsChain (q : List String) : List (List String) :=
  parentsChainFuel q.length q

/-- `getAllParentPaths(filePath)`: the ancestors of the changed path,
starting at `path.dirname(filePath)`, up to and excluding the media root. -/
def getAllParentPaths (p : List String) : List (List String) :=
  parentsChain p.dropLast

/-- The cover-cache key of one affected directory:
`` `cover_info:${p.replace(PHOTOS_DIR, '').replace(/\\/g, '/')}` ``. -/
def coverKeyOfSegs (segs : List String) : String :=
  "cover_info:" ++ segs.foldl (fun acc s => acc ++ "/" ++ s) ""

/-- The observable effects of one `invalidateCoverCache` call: the argument
lists of the `redis.del(...cacheKeys)` calls it makes, whether the catch
branch logged an error, and the writes it issued against the `album_covers`
table (the function touches no database at all, so this list is built
empty). The function never throws: the whole body is wrapped in
`try/catch`. -/
structure InvalidateResult where
  batchDeletes : List (List String)
  errorLogged : Bool
  coverTableWrites : List String
deriving DecidableEq, Repr

/-- `invalidateCoverCache(changedPath)`; `delOk` is whether the single
batched `redis.del` succeeds. -/
def invalidateCoverCache (delOk : Bool) (p : List String) : InvalidateResult :=
  let affectedPaths := getAllParentPaths p
  let cacheKeys := affectedPaths.map coverKeyOfSegs
  if 0 < cacheKeys.length then
    { batchDeletes := [cacheKeys], errorLogged := !delOk,
      coverTableWrites := [] }
  else
    { batchDeletes := [], errorLogged := false, coverTableWrites := [] }

/-! ## Bounded concurrency limiter: `createConcurrencyLimiter` -/

/-- The limiter's state. `running` holds the identities of the jobs whose
`fn` has started and not yet settled (`activeCount` is its length);
`queue` is `pendingQueue` (FIFO); `started` records start order; `settled`
records `(job, outcome)` for each settled scheduling promise. Jobs are
identified by submission order (`nextId` counts submissions). -/
structure LimState where
  queue : List Nat
  running : List Nat
  started : List Nat
  settled : List (Nat × Bool)
  nextId : Nat
deriving DecidableEq, Repr

/-- The `next()` closure: return at capacity (`activeCount >= maxConcurrent`)
or on an empty queue; otherwise shift the front job and start it
(`activeCount++`). -/
def limNext (maxConcurrent : Nat) (s : LimState) : LimState :=
  if s.running.length ≥ maxConcurrent then s
  else
    match s.queue with
    | [] => s
    | j :: rest =>
        { s with queue := rest, running := s.running ++ [j],
                 started := s.started ++ [j] }

/-- One call of the function returned by `createConcurrencyLimiter(max)`:
push `{fn, resolve, reject}` onto `pendingQueue`, then `next()`. -/
def limSubmit (maxConcurrent : Nat) (s : LimState) : LimState :=
  limNext maxConcurrent
    { s with queue := s.queue ++ [s.nextId], nextId := s.nextId + 1 }

/-- Running job `i` settles: `.then(job.resolve, job.reject)` resolves or
rejects exactly job `i`'s promise with job `i`'s own outcome, and the
`finally` handler runs `activeCount--` then `next()`. -/
def limComplete (maxConcurrent : Nat) (outcome : Nat → Bool) (s : LimState)
    (i : Nat) : LimState :=
  limNext maxConcurrent
    { s with running := s.running.erase i,
             settled := s.settled ++ [(i, outcome i)] }

/-- The states reachable from a fresh limiter under any interleaving of
submissions and completions of running jobs (the JS event loop serialises
the two transition bodies, so each is one atomic step). -/
inductive LimReach (maxConcurrent : Nat) (outcome : Nat → Bool) : LimState → Prop
  | init : LimReach maxConcurrent outcome ⟨[], [], [], [], 0⟩
  | submit {s} : LimReach maxConcurrent outcome s →
      LimReach maxConcurrent outcome (limSubmit maxConcurrent s)
  | complete {s i} : LimReach maxConcurrent outcome s → i ∈ s.running →
      LimReach maxConcurrent outcome (limComplete maxConcurrent outcome s i)

/-! ## Concrete baseline environment for witnesses -/

/-- A minimal concrete environment; individual witnesses override fields. -/
def envBase : Env :=
  { photosDir := "/photos", apiBase := "", isPathSafe := fun _ => true,
    statIsDir := fun _ => true, statMtime := fun _ => none, now := 1000,
    items := [], albumCovers := [], albumCoversOk := true,
    coverMgetOk := true, coverCache := fun _ => .miss,
    coverFallbackOk := fun _ => true, dimCache := fun _ => .miss,
    probe := fun _ _ => .error (), historyOk := true, viewHistory := [],
    collator := fun s t => if s < t then -1 else if s = t then 0 else 1,
    useFsHlsCheck := false, hlsFs := fun _ => .error (), hlsDbOk := true,
    processedVideos := [], homeShowSubdirs := false, homeMaxDepth := 1,
    dayAgo := 0, encodeURI := fun s => s }

/-! ## Claims -/

/-- **C1.** For every call to `getMediaDimensions(itemPath, absolutePath,
isVideo, mtime, indexDimensions)`: if `indexDimensions` has numeric
`width > 0` and `height > 0`, that pair is returned (no probe, no cache
write); otherwise, if the cache entry at key `dim:{itemPath}:{mtime}`
deserialises to numeric `width > 0` and `height > 0`, that pair is
returned, and any malformed, unparseable or structurally invalid cache
entry is treated as a miss rather than an error; otherwise the probe runs
and its result is returned and written to the cache; if the probe fails,
the fixed default `{width: 1920, height: 1080}` is returned. The call never
throws: the embedding is a total function into `DimResult` in every case. -/
theorem c1_dimension_resolver_tiers (env : Env) (relPath absPath : String)
    (isVideo : Bool) (mtime : Int) (dbDims : Option RawDims) :
    (∀ d, dbDims = some d → isValidDbDimensions d = true →
      getMediaDimensions env relPath absPath isVideo mtime dbDims =
        { dims := d, cacheWrite := none, probeRan := false }) ∧
    ((∀ d, dbDims = some d → isValidDbDimensions d = false) →
      ∀ d, env.dimCache (generateCacheKey relPath mtime) = .parsed d →
        isValidDbDimensions d = true →
        getMediaDimensions env relPath absPath isVideo mtime dbDims =
          { dims := d, cacheWrite := none, probeRan := false }) ∧
    ((∀ d, dbDims = some d → isValidDbDimensions d = false) →
      (∀ d, env.dimCache (generateCacheKey relPath mtime) = .parsed d →
        isValidDbDimensions d = false) →
      ∀ d, env.probe absPath isVideo = .ok d →
        getMediaDimensions env relPath absPath isVideo mtime dbDims =
          { dims := d,
            cacheWrite := some (generateCacheKey relPath mtime, d),
            probeRan := true }) ∧
    ((∀ d, dbDims = some d → isValidDbDimensions d = false) →
      (∀ d, env.dimCache (generateCacheKey relPath mtime) = .parsed d →
        isValidDbDimensions d = false) →
      ∀ e, env.probe absPath isVideo = .error e →
        getMediaDimensions env relPath absPath isVideo mtime dbDims =
          { dims := getDefaultDimensions, cacheWrite := none,
            probeRan := true }) := by
  have hdbnone : (∀ d, dbDims = some d → isValidDbDimensions d = false) →
      extractDimensionsFromDb dbDims = none := by
    intro h
    cases dbDims with
    | none => rfl
    | some d =>
        simp [extractDimensionsFromDb, h d rfl]
  have hcachenone :
      (∀ d, env.dimCache (generateCacheKey relPath mtime) = .parsed d →
        isValidDbDimensions d = false) →
      getDimensionsFromCache env (generateCacheKey relPath mtime) = none := by
    intro h
    unfold getDimensionsFromCache
    cases hc : env.dimCache (generateCacheKey relPath mtime) with
    | miss => rfl
    | malformed => rfl
    | parsed d => simp [h d hc]
  refine ⟨?_, ?_, ?_, ?_⟩
  · intro d hd hvalid
    subst hd
    simp [getMediaDimensions, extractDimensionsFromDb, hvalid]
  · intro hdb d hc hvalid
    have h1 := hdbnone hdb
    simp only [getMediaDimensions, h1]
    simp [getDimensionsFromCache, hc, hvalid]
  · intro hdb hcache d hp
    have h1 := hdbnone hdb
    have h2 := hcachenone hcache
    simp only [getMediaDimensions, h1, h2, hp]
  · intro hdb hcache e hp
    have h1 := hdbnone hdb
    have h2 := hcachenone hcache
    simp only [getMediaDimensions, h1, h2, hp]

/-- Witness for C1: a concrete call with no index dimensions, an empty
cache, and a failing probe returns the 1920×1080 default. -/
theorem c1_dimension_resolver_tiers_witness :
    getMediaDimensions envBase "a.jpg" "/photos/a.jpg" false 5 none =
      { dims := getDefaultDimensions, cacheWrite := none, probeRan := true } :=
  (c1_dimension_resolver_tiers envBase "a.jpg" "/photos/a.jpg" false 5
      none).2.2.2
    (fun d hd => by cases hd)
    (fun d hd => by cases hd)
    () rfl

/-- **C10.** Whether a row is treated as a video — both for selection into
the HLS-readiness check and for the `'video'`/`'photo'` type of the built
view-model — is decided solely by the case-insensitive filename-extension
test (`.mp4`, `.webm`, `.mov`), never by the index's `type` column: an item
indexed as `type = 'video'` whose name (and basename) has any other
extension is excluded from the HLS video-row filter, is returned with type
`'photo'`, and carries `hlsReady = false`. -/
theorem c10_video_by_extension_only (env : Env) (hlsSet : List String)
    (item : Item) (_htype : item.type = "video")
    (hn : isVideoName item.name = false)
    (hb : isVideoName (basenameStr item.path) = false) :
    hlsVideoPred (rowOf 0 item) = false ∧
    (∀ rows : List Row, rowOf 0 item ∉ rows.filter hlsVideoPred) ∧
    (buildMediaItem env hlsSet (rowOf 0 item)).itemType = "photo" ∧
    (buildMediaItem env hlsSet (rowOf 0 item)).hlsFlag = false := by
  have hpred : hlsVideoPred (rowOf 0 item) = false := by
    simp [hlsVideoPred, rowOf, hn]
  have hphoto : (buildMediaItem env hlsSet (rowOf 0 item)).itemType = "photo" := by
    unfold buildMediaItem
    by_cases hrn : item.name = ""
    · simp [rowOf, hrn, hb, ViewItem.itemType]
    · simp [rowOf, hrn, hn, ViewItem.itemType]
  have hready : (buildMediaItem env hlsSet (rowOf 0 item)).hlsFlag = false := by
    unfold buildMediaItem
    by_cases hrn : item.name = ""
    · simp [rowOf, hrn, hb, ViewItem.hlsFlag]
    · simp [rowOf, hrn, hn, ViewItem.hlsFlag]
  refine ⟨hpred, ?_, hphoto, hready⟩
  intro rows hmem
  have h2 := (List.mem_filter.mp hmem).2
  rw [hpred] at h2
  cases h2

/-- Witness for C10: an item indexed as a video but named `clip.avi` is
built as a photo with `hlsReady = false` and is not HLS-checked. -/
theorem c10_video_by_extension_only_witness :
    isVideoName "clip.avi" = false ∧
    (buildMediaItem envBase []
        (rowOf 0 ⟨"a/clip.avi", "clip.avi", "video", 5, none, none⟩)).itemType
      = "photo" ∧
    (buildMediaItem envBase []
        (rowOf 0 ⟨"a/clip.avi", "clip.avi", "video", 5, none, none⟩)).hlsFlag
      = false :=
  have h := c10_video_by_extension_only envBase []
    ⟨"a/clip.avi", "clip.avi", "video", 5, none, none⟩ rfl
    (by decide) (by decide)
  ⟨by decide, h.2.2.1, h.2.2.2⟩

/-- `next()` preserves the concurrency bound and the combined
started-then-queued order, and never touches `settled` or `nextId`. -/
theorem limNext_facts (maxC : Nat) (t : LimState)
    (hb : t.running.length ≤ maxC) :
    (limNext maxC t).running.length ≤ maxC ∧
    (limNext maxC t).started ++ (limNext maxC t).queue =
      t.started ++ t.queue ∧
    (limNext maxC t).settled = t.settled ∧
    (limNext maxC t).nextId = t.nextId := by
  unfold limNext
  split
  · exact ⟨hb, rfl, rfl, rfl⟩
  · rename_i hlt
    rw [not_le] at hlt
    cases hq : t.queue with
    | nil =>
        refine ⟨hb, ?_, rfl, rfl⟩
        show t.started ++ t.queue = t.started ++ []
        rw [hq]
    | cons j rest =>
        refine ⟨?_, ?_, rfl, rfl⟩
        · show (t.running ++ [j]).length ≤ maxC
          simp only [List.length_append, List.length_cons, List.length_nil]
          omega
        · show (t.started ++ [j]) ++ rest = t.started ++ j :: rest
          rw [List.append_assoc]
          rfl

/-- What one schedule call does to the limiter state. -/
theorem limSubmit_facts (maxC : Nat) (s : LimState)
    (hb : s.running.length ≤ maxC) :
    (limSubmit maxC s).running.length ≤ maxC ∧
    (limSubmit maxC s).started ++ (limSubmit maxC s).queue =
      (s.started ++ s.queue) ++ [s.nextId] ∧
    (limSubmit maxC s).settled = s.settled ∧
    (limSubmit maxC s).nextId = s.nextId + 1 := by
  have h := limNext_facts maxC
    { s with queue := s.queue ++ [s.nextId], nextId := s.nextId + 1 }
    (by exact hb)
  refine ⟨h.1, ?_, h.2.2.1, h.2.2.2⟩
  rw [limSubmit, h.2.1]
  show s.started ++ (s.queue ++ [s.nextId]) = (s.started ++ s.queue) ++ [s.nextId]
  rw [List.append_assoc]

/-- What one completion does to the limiter state. -/
theorem limComplete_facts (maxC : Nat) (outcome : Nat → Bool) (s : LimState)
    (i : Nat) (hb : s.running.length ≤ maxC) :
    (limComplete maxC outcome s i).running.length ≤ maxC ∧
    (limComplete maxC outcome s i).started ++
        (limComplete maxC outcome s i).queue = s.started ++ s.queue ∧
    (limComplete maxC outcome s i).settled =
      s.settled ++ [(i, outcome i)] ∧
    (limComplete maxC outcome s i).nextId = s.nextId := by
  have hb' : (s.running.erase i).length ≤ maxC :=
    le_trans (List.length_erase_le _ _) hb
  have h := limNext_facts maxC
    { s with running := s.running.erase i,
             settled := s.settled ++ [(i, outcome i)] } (by exact hb')
  exact ⟨h.1, h.2.1, h.2.2.1, h.2.2.2⟩

/-- The inductive invariant of the limiter: the bound, FIFO start order
(started jobs followed by the wait queue reproduce submission order), and
that every settled promise carries its own job's outcome. -/
theorem limReach_invariant (maxC : Nat) (outcome : Nat → Bool) (s : LimState)
    (h : LimReach maxC outcome s) :
    s.running.length ≤ maxC ∧
    s.started ++ s.queue = List.range s.nextId ∧
    (∀ p ∈ s.settled, p.2 = outcome p.1) := by
  induction h with
  | init => simp
  | @submit s hs ih =>
      obtain ⟨ihb, ihf, ihs⟩ := ih
      obtain ⟨hb, hf, hset, hnext⟩ := limSubmit_facts maxC s ihb
      refine ⟨hb, ?_, ?_⟩
      · rw [hf, ihf, hnext, List.range_succ]
      · rw [hset]
        exact ihs
  | @complete s i hs hmem ih =>
      obtain ⟨ihb, ihf, ihs⟩ := ih
      obtain ⟨hb, hf, hset, hnext⟩ := limComplete_facts maxC outcome s i ihb
      refine ⟨hb, ?_, ?_⟩
      · rw [hf, ihf, hnext]
      · rw [hset]
        intro p hp
        rcases List.mem_append.mp hp with h1 | h1
        · exact ihs p h1
        · rcases List.mem_singleton.mp h1 with rfl
          rfl

/-- When the queue is non-empty, a completion immediately starts the queue's
front job: the state is computed in closed form. -/
theorem limComplete_starts_next (maxC : Nat) (outcome : Nat → Bool)
    (s : LimState) (i j : Nat) (rest : List Nat) (hq : s.queue = j :: rest)
    (hlt : (s.running.erase i).length < maxC) :
    limComplete maxC outcome s i =
      { queue := rest, running := s.running.erase i ++ [j],
        started := s.started ++ [j],
        settled := s.settled ++ [(i, outcome i)], nextId := s.nextId } := by
  obtain ⟨q, run, st, se, ni⟩ := s
  have hq' : q = j :: rest := hq
  subst hq'
  have hlt' : (run.erase i).length < maxC := hlt
  rw [limComplete]
  unfold limNext
  rw [if_neg (not_le.mpr hlt')]

/-- **C9.** For every `maxConcurrent ≥ 1` and any interleaving of schedule
calls and completions of running tasks: the number of simultaneously
running tasks never exceeds `maxConcurrent`; tasks start in FIFO submission
order (the started jobs followed by the wait queue always reproduce the
`0, 1, …` submission order, so starts are a prefix of submission order);
every settled scheduling promise carries exactly its own task's outcome;
and when a running task completes while the queue is non-empty, the front
queued task starts immediately (the running count is restored and that task
moves to the started list in the same step). -/
theorem c9_concurrency_limiter (maxConcurrent : Nat) (outcome : Nat → Bool)
    (s : LimState) (_hmax : 1 ≤ maxConcurrent)
    (h : LimReach maxConcurrent outcome s) :
    s.running.length ≤ maxConcurrent ∧
    s.started ++ s.queue = List.range s.nextId ∧
    (∀ p ∈ s.settled, p.2 = outcome p.1) ∧
    (∀ i ∈ s.running, ∀ j rest, s.queue = j :: rest →
      (limComplete maxConcurrent outcome s i).started = s.started ++ [j] ∧
      (limComplete maxConcurrent outcome s i).running.length =
        s.running.length) := by
  obtain ⟨hb, hf, hsettled⟩ := limReach_invariant maxConcurrent outcome s h
  refine ⟨hb, hf, hsettled, ?_⟩
  intro i hi j rest hq
  have hlen : (s.running.erase i).length = s.running.length - 1 :=
    List.length_erase_of_mem hi
  have hpos : 1 ≤ s.running.length :=
    List.length_pos.mpr (List.ne_nil_of_mem hi)
  have hlt : (s.running.erase i).length < maxConcurrent := by
    omega
  rw [limComplete_starts_next maxConcurrent outcome s i j rest hq hlt]
  refine ⟨rfl, ?_⟩
  show (s.running.erase i ++ [j]).length = s.running.length
  simp only [List.length_append, List.length_cons, List.length_nil]
  omega

/-- Witness for C9: with limit 1, after two submissions one task runs and
one waits; completing the running task starts the waiting one at once. -/
theorem c9_concurrency_limiter_witness :
    (limSubmit 1 (limSubmit 1 ⟨[], [], [], [], 0⟩)).running.length ≤ 1 ∧
    (limSubmit 1 (limSubmit 1 ⟨[], [], [], [], 0⟩)).started ++
        (limSubmit 1 (limSubmit 1 ⟨[], [], [], [], 0⟩)).queue =
      List.range 2 ∧
    (limComplete 1 (fun _ => true)
        (limSubmit 1 (limSubmit 1 ⟨[], [], [], [], 0⟩)) 0).started =
      [0, 1] := by
  have h := c9_concurrency_limiter 1 (fun _ => true)
    (limSubmit 1 (limSubmit 1 ⟨[], [], [], [], 0⟩)) (by decide)
    (LimReach.submit (LimReach.submit LimReach.init))
  refine ⟨h.1, h.2.1, ?_⟩
  have h4 := h.2.2.2 0 (by decide) 1 [] (by decide)
  rw [h4.1]
  decide

/-- The elements produced by the ancestor loop are exactly the non-empty
prefixes of the starting path. -/
theorem mem_parentsChainFuel :
    ∀ (fuel : Nat) (q r : List String), q.length ≤ fuel →
      (r ∈ parentsChainFuel fuel q ↔ r ≠ [] ∧ r <+: q) := by
  intro fuel
  induction fuel with
  | zero =>
      intro q r hlen
      have hq : q = [] := List.length_eq_zero.mp (Nat.le_zero.mp hlen)
      subst hq
      simp only [parentsChainFuel, List.not_mem_nil, false_iff, not_and]
      intro hne hpre
      exact hne (List.prefix_nil.mp hpre)
  | succ n ih =>
      intro q r hlen
      cases q with
      | nil =>
          simp only [parentsChainFuel, List.not_mem_nil, false_iff, not_and]
          intro hne hpre
          exact hne (List.prefix_nil.mp hpre)
      | cons a l =>
          have hlen' : (a :: l).dropLast.length ≤ n := by
            rw [List.length_dropLast]
            simp only [List.length_cons] at hlen ⊢
            omega
          simp only [parentsChainFuel, List.mem_cons]
          rw [ih _ r hlen']
          constructor
          · rintro (rfl | ⟨hne, hpre⟩)
            · exact ⟨List.cons_ne_nil a l, List.prefix_refl _⟩
            · exact ⟨hne, hpre.trans (List.dropLast_prefix _)⟩
          · rintro ⟨hne, hpre⟩
            by_cases heq : r = a :: l
            · exact Or.inl heq
            · right
              refine ⟨hne, ?_⟩
              have hlt : r.length < (a :: l).length := by
                rcases lt_or_eq_of_le hpre.length_le with h | h
                · exact h
                · exact absurd (hpre.eq_of_length h) heq
              have hr : r = (a :: l).take r.length :=
                List.prefix_iff_eq_take.mp hpre
              rw [List.prefix_iff_eq_take, List.dropLast_eq_take, List.take_take]
              have hmin : min r.length ((a :: l).length - 1) = r.length := by
                omega
              rw [hmin, ← hr]

/-- Prefixes of `dropLast` are exactly the proper prefixes. -/
theorem prefix_dropLast_iff {r p : List String} (hp : p ≠ []) :
    r <+: p.dropLast ↔ r <+: p ∧ r.length < p.length := by
  have hplen : 1 ≤ p.length := List.length_pos.mpr hp
  constructor
  · intro h
    have h1 : r <+: p := h.trans (List.dropLast_prefix p)
    have h2 : r.length ≤ p.dropLast.length := h.length_le
    rw [List.length_dropLast] at h2
    exact ⟨h1, by omega⟩
  · rintro ⟨h1, h2⟩
    have hr : r = p.take r.length := List.prefix_iff_eq_take.mp h1
    rw [List.prefix_iff_eq_take, List.dropLast_eq_take, List.take_take]
    have hmin : min r.length (p.length - 1) = r.length := by omega
    rw [hmin, ← hr]

/-- The affected set of `getAllParentPaths`: the non-empty proper prefixes of
the changed path (its parent directory, grandparent, …, excluding the media
root). -/
theorem mem_getAllParentPaths (p r : List String) :
    r ∈ getAllParentPaths p ↔ r ≠ [] ∧ r <+: p ∧ r.length < p.length := by
  unfold getAllParentPaths parentsChain
  rw [mem_parentsChainFuel p.dropLast.length p.dropLast r le_rfl]
  cases hp : p with
  | nil =>
      simp only [List.dropLast_nil]
      constructor
      · rintro ⟨hne, hpre⟩
        exact absurd (List.prefix_nil.mp hpre) hne
      · rintro ⟨hne, hpre, hlen⟩
        exact absurd (List.prefix_nil.mp hpre) hne
  | cons a l =>
      rw [prefix_dropLast_iff (List.cons_ne_nil a l)]

/-- **C3 counterexample.** The claim says the key derived from the changed
path itself is deleted. For the changed path `PHOTOS_DIR/A/img.jpg` the
batch deletes only `cover_info:/A` (the parent's key): the key
`cover_info:/A/img.jpg` derived from the changed path is in no deleted
batch, so the claim is false as stated. -/
theorem c3_invalidation_misses_changed_path_key :
    (invalidateCoverCache true ["A", "img.jpg"]).batchDeletes =
      [["cover_info:/A"]] ∧
    coverKeyOfSegs ["A", "img.jpg"] = "cover_info:/A/img.jpg" ∧
    ¬ (∃ ks ∈ (invalidateCoverCache true ["A", "img.jpg"]).batchDeletes,
        "cover_info:/A/img.jpg" ∈ ks) := by
  decide

/-- **C3 (amended).** For every changed path `p` under the media root,
`invalidateCoverCache(p)` deletes, in one batch `redis.del`, exactly the
cover-cache keys derived from the proper ancestor directories of `p` — its
parent directory up to, and excluding, the media root — but not a key
derived from the changed path itself; a deletion failure only sets the
logged-error flag (the call never throws: the embedding is total), and the
`album_covers` table is never touched. -/
theorem c3_cover_invalidation_amended (delOk : Bool) (p : List String) :
    (∀ k, (∃ ks ∈ (invalidateCoverCache delOk p).batchDeletes, k ∈ ks) ↔
      ∃ q, q ≠ [] ∧ q <+: p ∧ q.length < p.length ∧ k = coverKeyOfSegs q) ∧
    (invalidateCoverCache delOk p).batchDeletes.length ≤ 1 ∧
    (invalidateCoverCache delOk p).coverTableWrites = [] ∧
    (invalidateCoverCache delOk p).errorLogged =
      (!delOk && !(getAllParentPaths p).isEmpty) := by
  have hmem : ∀ k,
      (∃ ks ∈ (invalidateCoverCache delOk p).batchDeletes, k ∈ ks) ↔
      k ∈ (getAllParentPaths p).map coverKeyOfSegs := by
    intro k
    simp only [invalidateCoverCache]
    split
    · simp
    · rename_i hlen
      rw [not_lt, Nat.le_zero, List.length_eq_zero] at hlen
      rw [hlen]
      simp
  refine ⟨?_, ?_, ?_, ?_⟩
  · intro k
    rw [hmem k, List.mem_map]
    constructor
    · rintro ⟨q, hq, rfl⟩
      obtain ⟨h1, h2, h3⟩ := (mem_getAllParentPaths p q).mp hq
      exact ⟨q, h1, h2, h3, rfl⟩
    · rintro ⟨q, h1, h2, h3, rfl⟩
      exact ⟨q, (mem_getAllParentPaths p q).mpr ⟨h1, h2, h3⟩, rfl⟩
  · simp only [invalidateCoverCache]
    split
    · simp
    · simp
  · simp only [invalidateCoverCache]
    split
    · rfl
    · rfl
  · simp only [invalidateCoverCache]
    split
    · rename_i hlen
      rw [List.length_map] at hlen
      have hne : (getAllParentPaths p).isEmpty = false := by
        cases hg : getAllParentPaths p with
        | nil => rw [hg] at hlen; simp at hlen
        | cons x xs => rfl
      rw [hne]
      cases delOk <;> rfl
    · rename_i hlen
      rw [not_lt, Nat.le_zero, List.length_eq_zero, List.map_eq_nil_iff] at hlen
      rw [hlen]
      cases delOk <;> rfl

/-- Witness for C3's amended theorem at a concrete three-segment path with a
failing batch delete: no cover-table write, and the failure is only
logged. -/
theorem c3_cover_invalidation_amended_witness :
    (invalidateCoverCache false ["A", "B", "c.jpg"]).coverTableWrites = [] ∧
    (invalidateCoverCache false ["A", "B", "c.jpg"]).errorLogged = true :=
  have h := c3_cover_invalidation_amended false ["A", "B", "c.jpg"]
  ⟨h.2.2.1, by rw [h.2.2.2]; decide⟩

set_option maxRecDepth 8192 in
/-- **C8 (code bug).** The claim's home-recursive half requires the
`name_asc` query to succeed with the depth bucket as primary key. The
`name_asc` home-recursive branch is the only `ORDER BY` template that embeds
`//` line annotations in the SQL itself (the parallel `name_desc` and smart
home branches carry none); `//` is not SQLite comment syntax, so the
generated statement is invalid and `dbAll` rejects it: the listing throws
instead of returning the depth-bucketed ordering. -/
theorem c8_name_asc_home_recursive_sql_invalid :
    containsSlashSlash nameAscHomeOrderBy = true ∧
    getDirectChildrenFromDb { envBase with homeShowSubdirs := true } ""
        "name_asc" 10 0 = .error .sqlInvalid := by
  constructor
  · decide
  · rfl

/-- **C4.** `getDirectoryContents` rejects any `pathPrefix` failing the
path-safety check by throwing; for a (safe) prefix that does not resolve to
an existing directory it returns the empty result
`{items: [], totalPages: 1, totalResults: 0}` without error when the prefix
is the root (empty string), and throws a not-found error for every non-root
prefix. -/
theorem c4_validation_and_missing_directory (env : Env) (pfx : String)
    (page limit : Nat) (userId : Option String) (sort : String) :
    (env.isPathSafe pfx = false →
      getDirectoryContents env pfx page limit userId sort =
        .error (.unsafePath pfx)) ∧
    (env.isPathSafe pfx = true →
      env.statIsDir (pathJoin env.photosDir pfx) = false →
      (pfx = "" →
        getDirectoryContents env pfx page limit userId sort =
          .ok { items := [], totalPages := 1, totalResults := 0 }) ∧
      (pfx ≠ "" →
        getDirectoryContents env pfx page limit userId sort =
          .error (.notFound pfx))) := by
  constructor
  · intro h
    simp [getDirectoryContents, h]
  · intro hsafe hstat
    constructor
    · intro hroot
      subst hroot
      simp [getDirectoryContents, validateDirectory, hsafe, hstat]
    · intro hroot
      simp [getDirectoryContents, validateDirectory, hsafe, hstat, hroot]

/-- Witness for C4: an unsafe prefix throws access-denied; with a missing
directory the root prefix yields the empty result while a non-root prefix
throws not-found. -/
theorem c4_validation_and_missing_directory_witness :
    getDirectoryContents { envBase with isPathSafe := fun _ => false } "x"
        1 10 none "smart" = .error (.unsafePath "x") ∧
    getDirectoryContents { envBase with statIsDir := fun _ => false } ""
        1 10 none "smart" =
      .ok { items := [], totalPages := 1, totalResults := 0 } ∧
    getDirectoryContents { envBase with statIsDir := fun _ => false } "a"
        1 10 none "smart" = .error (.notFound "a") :=
  ⟨(c4_validation_and_missing_directory
      { envBase with isPathSafe := fun _ => false } "x" 1 10 none "smart").1
      rfl,
   ((c4_validation_and_missing_directory
      { envBase with statIsDir := fun _ => false } "" 1 10 none "smart").2
      rfl rfl).1 rfl,
   ((c4_validation_and_missing_directory
      { envBase with statIsDir := fun _ => false } "a" 1 10 none "smart").2
      rfl rfl).2 (by decide)⟩

theorem find?_mapSet_subst (m : List (String × CoverInfo)) (k : String)
    (v : CoverInfo) :
    (m.map (fun p => if p.1 == k then (k, v) else p)).find?
        (fun p => p.1 == k) =
      if mapHas m k then some (k, v) else none := by
  induction m with
  | nil => rfl
  | cons q rest ih =>
      by_cases hqk : (q.1 == k) = true
      · simp only [List.map_cons, if_pos hqk]
        rw [List.find?_cons_of_pos _ (by simp)]
        have hh : mapHas (q :: rest) k = true := by
          unfold mapHas
          rw [List.any_cons, hqk]
          rfl
        rw [hh]
        rfl
      · simp only [List.map_cons, if_neg hqk]
        rw [List.find?_cons_of_neg _ (by simpa using hqk)]
        have hh : mapHas (q :: rest) k = mapHas rest k := by
          unfold mapHas
          rw [List.any_cons, (by simpa using hqk : (q.1 == k) = false)]
          rfl
        rw [hh]
        exact ih

theorem find?_mapSet_other (m : List (String × CoverInfo)) (k k' : String)
    (v : CoverInfo) (h : k' ≠ k) :
    (m.map (fun p => if p.1 == k then (k, v) else p)).find?
        (fun p => p.1 == k') =
      m.find? (fun p => p.1 == k') := by
  induction m with
  | nil => rfl
  | cons q rest ih =>
      by_cases hqk : (q.1 == k) = true
      · have hq1 : q.1 = k := eq_of_beq hqk
        have hkk' : (k == k') = false := by
          rw [beq_eq_false_iff_ne]
          exact fun hh => h hh.symm
        have hqk' : (q.1 == k') = false := by
          rw [hq1]
          exact hkk'
        simp only [List.map_cons, if_pos hqk]
        rw [List.find?_cons_of_neg _ (by simp [hkk']),
          List.find?_cons_of_neg _ (by simp [hqk'])]
        exact ih
      · simp only [List.map_cons, if_neg hqk]
        by_cases hqk' : (q.1 == k') = true
        · rw [@List.find?_cons_of_pos _ (fun p => p.1 == k') q _ hqk',
            @List.find?_cons_of_pos _ (fun p => p.1 == k') q _ hqk']
        · rw [List.find?_cons_of_neg _ (by simpa using hqk'),
            List.find?_cons_of_neg _ (by simpa using hqk')]
          exact ih

/-- `coversMap.set` then `.get` of the same key. -/
theorem mapGet_mapSet_self (m : List (String × CoverInfo)) (k : String)
    (v : CoverInfo) : mapGet (mapSet m k v) k = some v := by
  unfold mapSet mapGet
  split
  · rename_i hhas
    rw [find?_mapSet_subst, hhas]
    rfl
  · rename_i hhas
    rw [List.find?_append]
    have hnone : m.find? (fun p => p.1 == k) = none := by
      rw [List.find?_eq_none]
      intro x hx hxk
      exact hhas (List.any_eq_true.mpr ⟨x, hx, hxk⟩)
    rw [hnone]
    simp [List.find?_cons_of_pos]

/-- `coversMap.set` leaves other keys unchanged. -/
theorem mapGet_mapSet_other (m : List (String × CoverInfo)) (k k' : String)
    (v : CoverInfo) (h : k' ≠ k) :
    mapGet (mapSet m k v) k' = mapGet m k' := by
  unfold mapSet mapGet
  split
  · rw [find?_mapSet_other m k k' v h]
  · rw [List.find?_append]
    have hlast : [(k, v)].find? (fun p => p.1 == k') = none := by
      rw [List.find?_eq_none]
      intro x hx
      rcases List.mem_singleton.mp hx with rfl
      intro hko
      exact h (eq_of_beq hko).symm
    rw [hlast, Option.or_none]

/-- `path.join(PHOTOS_DIR, ·)` is injective on relative paths. -/
theorem pathJoin_inj {root a b : String} (h : pathJoin root a = pathJoin root b) :
    a = b := by
  unfold pathJoin at h
  split at h <;> split at h
  · rename_i h1 h2
    rw [h1, h2]
  · rename_i h1 h2
    have := congrArg String.length h
    simp only [String.length_append] at this
    exfalso
    have hb : 0 < "/".length + b.length := by
      have : (1 : Nat) ≤ "/".length := by decide
      omega
    omega
  · rename_i h1 h2
    have := congrArg String.length h
    simp only [String.length_append] at this
    exfalso
    have ha : 0 < "/".length + a.length := by
      have : (1 : Nat) ≤ "/".length := by decide
      omega
    omega
  · have hd := congrArg String.data h
    simp only [String.data_append] at hd
    have hab := List.append_cancel_left hd
    cases a with
    | mk da =>
        cases b with
        | mk db =>
            have h2 : da = db := hab
            rw [h2]

/-- The first row of `ORDER BY mtime DESC` carries a maximal `mtime`. -/
theorem sortRows_mtimeDesc_head (l : List Item) (r : Item)
    (h : (sortRows cmpItemMtimeDesc l).head? = some r) :
    r ∈ l ∧ ∀ m ∈ l, m.mtime ≤ r.mtime := by
  have hperm := sortRows_perm cmpItemMtimeDesc l
  have hlaw : LawfulCmp cmpItemMtimeDesc :=
    descC_lawful (byKey_lawful cmpL_lawful)
  have hpair := sortRows_pairwise hlaw l
  cases hs : sortRows cmpItemMtimeDesc l with
  | nil =>
      rw [hs] at h
      cases h
  | cons x t =>
      rw [hs] at h hperm hpair
      have hx : x = r := by
        injection h
      subst hx
      refine ⟨hperm.mem_iff.mp (List.mem_cons_self x t), ?_⟩
      intro m hm
      rcases List.mem_cons.mp (hperm.symm.mem_iff.mp hm) with rfl | hmt
      · exact le_refl _
      · have hle := (List.pairwise_cons.mp hpair).1 m hmt
        rw [cmpLe_iff] at hle
        unfold cmpItemMtimeDesc descC byKey at hle
        by_contra hlt
        rw [not_le] at hlt
        have : cmpL x.mtime m.mtime = .lt := by
          unfold cmpL
          rw [if_pos hlt]
        rw [this] at hle
        exact hle rfl

/-- Future fallback iterations never disturb an album's resolved entry:
they write other keys, or rewrite the same key with the same value. -/
theorem coverFallback_foldl_stable (env : Env) (rel : String) (r : Item)
    (hq : coverFallbackQuery env rel = some r) :
    ∀ (still : List String)
      (acc : List (String × CoverInfo) × List (String × CoverInfo)),
      mapGet acc.1 (pathJoin env.photosDir rel) =
        some (coverInfoOfItem env r) →
      mapGet (still.foldl (coverFallbackStep env) acc).1
          (pathJoin env.photosDir rel) =
        some (coverInfoOfItem env r) := by
  intro still
  induction still with
  | nil =>
      intro acc hacc
      exact hacc
  | cons x rest ih =>
      intro acc hacc
      rw [List.foldl_cons]
      apply ih
      unfold coverFallbackStep
      split
      · cases hqx : coverFallbackQuery env x with
        | none => exact hacc
        | some rx =>
            show mapGet (mapSet acc.1 (pathJoin env.photosDir x)
                (coverInfoOfItem env rx)) (pathJoin env.photosDir rel) =
              some (coverInfoOfItem env r)
            by_cases hxr : pathJoin env.photosDir x = pathJoin env.photosDir rel
            · have hx : x = rel := pathJoin_inj hxr
              subst hx
              have hrr : rx = r := by
                rw [hq] at hqx
                injection hqx with hv
                exact hv.symm
              subst hrr
              rw [hxr]
              exact mapGet_mapSet_self _ _ _
            · rw [mapGet_mapSet_other _ _ _ _ (fun hh => hxr hh.symm)]
              exact hacc
      · exact hacc

/-- The fallback tier's Redis writes only grow. -/
theorem coverFallback_foldl_writes_mono (env : Env) :
    ∀ (still : List String)
      (acc : List (String × CoverInfo) × List (String × CoverInfo))
      (w : String × CoverInfo), w ∈ acc.2 →
      w ∈ (still.foldl (coverFallbackStep env) acc).2 := by
  intro still
  induction still with
  | nil =>
      intro acc w hw
      exact hw
  | cons x rest ih =>
      intro acc w hw
      rw [List.foldl_cons]
      apply ih
      unfold coverFallbackStep
      split
      · cases hqx : coverFallbackQuery env x with
        | none => exact hw
        | some rx => exact List.mem_append_left _ hw
      · exact hw

/-- Every still-missing album whose fallback query succeeds ends up resolved
in the map, with its Redis write recorded. -/
theorem coverFallback_foldl_resolves (env : Env) (rel : String) (r : Item)
    (hok : env.coverFallbackOk rel = true)
    (hq : coverFallbackQuery env rel = some r) :
    ∀ (still : List String)
      (acc : List (String × CoverInfo) × List (String × CoverInfo)),
      rel ∈ still →
      mapGet (still.foldl (coverFallbackStep env) acc).1
          (pathJoin env.photosDir rel) =
        some (coverInfoOfItem env r) ∧
      (coverKeyFor rel, coverInfoOfItem env r) ∈
        (still.foldl (coverFallbackStep env) acc).2 := by
  intro still
  induction still with
  | nil =>
      intro acc hmem
      cases hmem
  | cons x rest ih =>
      intro acc hmem
      by_cases hx : x = rel
      · subst hx
        rw [List.foldl_cons]
        have hstep : coverFallbackStep env acc x =
            (mapSet acc.1 (pathJoin env.photosDir x) (coverInfoOfItem env r),
             acc.2 ++ [(coverKeyFor x, coverInfoOfItem env r)]) := by
          unfold coverFallbackStep
          rw [if_pos hok, hq]
        rw [hstep]
        constructor
        · apply coverFallback_foldl_stable env x r hq
          exact mapGet_mapSet_self _ _ _
        · apply coverFallback_foldl_writes_mono
          exact List.mem_append_right _ (List.mem_singleton.mpr rfl)
      · rcases List.mem_cons.mp hmem with h1 | h1
        · exact absurd h1.symm hx
        · rw [List.foldl_cons]
          exact ih _ h1

/-- A photo two levels under the media root, used by concrete cover
scenarios. -/
def itemX : Item :=
  { path := "Album/x.jpg", name := "x.jpg", type := "photo", mtime := 7,
    width := some 100, height := some 50 }

/-- An environment with one indexed photo, an empty `album_covers` table and
an empty cover cache. -/
def cEnv2 : Env :=
  { envBase with items := [itemX] }

/-- **C2 counterexample.** For the album `Album`, unresolved after the cache
tier (cache miss) and after the `album_covers` lookup (empty table), the
fallback query resolves the cover from the `items` index and the result is
written to the key-value cache — but the set of writes against the
dedicated cover table is empty: the claim's "writes the result through to
both tiers" is false for the `album_covers` tier. -/
theorem c2_fallback_never_writes_cover_table :
    (findCoverPhotosBatchDb cEnv2 ["Album"]).covers =
      [("/photos/Album", coverInfoOfItem cEnv2 itemX)] ∧
    (findCoverPhotosBatchDb cEnv2 ["Album"]).cacheWrites =
      [("cover_info:/Album", coverInfoOfItem cEnv2 itemX)] ∧
    (findCoverPhotosBatchDb cEnv2 ["Album"]).tableWrites = [] := by
  have hq : coverFallbackQuery cEnv2 "Album" = some itemX := by
    show (List.mergeSort [itemX] (cmpLe cmpItemMtimeDesc)).head? = some itemX
    simp [List.mergeSort]
  refine ⟨?_, ?_, rfl⟩
  · show (coverFallbackTier cEnv2 ["Album"] []).1 =
      [("/photos/Album", coverInfoOfItem cEnv2 itemX)]
    unfold coverFallbackTier
    rw [List.foldl_cons, List.foldl_nil]
    unfold coverFallbackStep
    rw [hq]
    rfl
  · show ([] ++ (coverFallbackTier cEnv2 ["Album"] []).2 : List _) =
      [("cover_info:/Album", coverInfoOfItem cEnv2 itemX)]
    unfold coverFallbackTier
    rw [List.foldl_cons, List.foldl_nil]
    unfold coverFallbackStep
    rw [hq]
    rfl

/-- **C2 (amended).** In `findCoverPhotosBatchDb`, for every album path that
is unresolved after the cache tier and after the `album_covers` table
lookup, the resolver queries the relational index for a most-recently-
modified item of type photo or video whose path matches `{albumPath}/%`
(`ORDER BY mtime DESC LIMIT 1`), uses that row as the cover, and writes the
result through to the key-value cache tier only — the dedicated cover table
is never written by this resolver (its write set is empty). -/
theorem c2_cover_fallback_resolution (env : Env) (rels : List String)
    (rel : String) (hmem : rel ∈ coverStillMissing env rels)
    (hok : env.coverFallbackOk rel = true) (hrel : rel ≠ "") (r : Item)
    (hq : coverFallbackQuery env rel = some r) :
    (r ∈ env.items ∧
      (r.type = "photo" ∨ r.type = "video") ∧
      strIsPrefixOf (rel ++ "/") r.path = true ∧
      (∀ m ∈ env.items, (m.type = "photo" ∨ m.type = "video") →
        strIsPrefixOf (rel ++ "/") m.path = true → m.mtime ≤ r.mtime)) ∧
    mapGet (findCoverPhotosBatchDb env rels).covers
        (pathJoin env.photosDir rel) = some (coverInfoOfItem env r) ∧
    (coverKeyFor rel, coverInfoOfItem env r) ∈
      (findCoverPhotosBatchDb env rels).cacheWrites ∧
    (findCoverPhotosBatchDb env rels).tableWrites = [] := by
  have hq' : (sortRows cmpItemMtimeDesc
      (env.items.filter (fun i =>
        (i.type == "photo" || i.type == "video") &&
        (if rel = "" then true else strIsPrefixOf (rel ++ "/") i.path)))).head?
      = some r := hq
  obtain ⟨hrmem, hrmax⟩ := sortRows_mtimeDesc_head _ r hq'
  have hrfilter := List.mem_filter.mp hrmem
  have hpred := hrfilter.2
  rw [Bool.and_eq_true, Bool.or_eq_true] at hpred
  obtain ⟨htype, hlike⟩ := hpred
  rw [if_neg hrel] at hlike
  have htype' : r.type = "photo" ∨ r.type = "video" := by
    rcases htype with h1 | h1
    · exact Or.inl (by simpa using h1)
    · exact Or.inr (by simpa using h1)
  refine ⟨⟨hrfilter.1, htype', hlike, ?_⟩, ?_, ?_, rfl⟩
  · intro m hm hmtype hmlike
    apply hrmax
    rw [List.mem_filter]
    refine ⟨hm, ?_⟩
    rw [Bool.and_eq_true, Bool.or_eq_true]
    refine ⟨?_, ?_⟩
    · rcases hmtype with h1 | h1
      · exact Or.inl (by simpa using h1)
      · exact Or.inr (by simpa using h1)
    · rw [if_neg hrel]
      exact hmlike
  · exact (coverFallback_foldl_resolves env rel r hok hq
      (coverStillMissing env rels) ((coverTier12 env rels).1.1, []) hmem).1
  · apply List.mem_append_right
    exact (coverFallback_foldl_resolves env rel r hok hq
      (coverStillMissing env rels) ((coverTier12 env rels).1.1, []) hmem).2

/-- Witness for C2's amended theorem: the concrete single-photo scenario,
resolved through the fallback tier into the map and the cache-write list,
with an empty cover-table write set. -/
theorem c2_cover_fallback_resolution_witness :
    mapGet (findCoverPhotosBatchDb cEnv2 ["Album"]).covers "/photos/Album" =
      some (coverInfoOfItem cEnv2 itemX) ∧
    (findCoverPhotosBatchDb cEnv2 ["Album"]).tableWrites = [] := by
  have hq : coverFallbackQuery cEnv2 "Album" = some itemX := by
    show (List.mergeSort [itemX] (cmpLe cmpItemMtimeDesc)).head? = some itemX
    simp [List.mergeSort]
  have h := c2_cover_fallback_resolution cEnv2 ["Album"] "Album"
    (by decide) rfl (by decide) itemX hq
  exact ⟨h.2.1, h.2.2.2⟩

/-- A length-first collator: shorter strings first, code points as tie
break. Numeric-aware collators (the code builds
`Intl.Collator('zh-CN', {numeric: true, sensitivity: 'base'})`) order
`"a2"` before `"a10"` exactly like this on such names, unlike the query
layer's case-folded code-point order. -/
def lenFirstColl (s t : String) : Int :=
  if s.length < t.length then -1
  else if t.length < s.length then 1
  else
    match cmpStr s t with
    | .lt => -1
    | .eq => 0
    | .gt => 1

/-- An environment whose collator is numeric-style. -/
def cEnv7 : Env :=
  { envBase with collator := lenFirstColl }

/-- A media row named `a10`. -/
def rowM1 : Row :=
  { is_dir := 0, name := "a10", path := "a10", mtime := 1,
    width := none, height := none }

/-- A media row named `a2`. -/
def rowM2 : Row :=
  { is_dir := 0, name := "a2", path := "a2", mtime := 2,
    width := none, height := none }

/-- **C7 counterexample.** `viewed_desc` with a user present, the history
store reachable, and a page holding only media rows: `processSorting`
returns the page unchanged (the album-rows guard fires before any
sorting), so the media rows are *not* re-sorted by the collator — the page
`[a10, a2]` (the query layer's code-point order) stays in that order even
though the collator orders `a2` strictly before `a10`. The claim's
"media rows follow all directories sorted by name" fails on pages with no
directory rows. -/
theorem c7_no_directory_page_kept_unsorted :
    processSorting cEnv7 [rowM1, rowM2] "viewed_desc" "" (some "u") =
      [rowM1, rowM2] ∧
    collCmp cEnv7.collator rowM1.name rowM2.name = .gt := by
  constructor
  · rfl
  · decide

/-- What the album comparator of `processSorting` guarantees between an
earlier and a later album row. -/
theorem cmpViewedAlbums_le_imp (env : Env) (u : String) (a b : Row)
    (h : cmpLe (cmpViewedAlbums env u) a b = true) :
    lastViewedOf env u b.path ≤ lastViewedOf env u a.path ∧
    (lastViewedOf env u a.path = lastViewedOf env u b.path →
      collCmp env.collator a.name b.name ≠ .gt) := by
  rw [cmpLe_iff] at h
  unfold cmpViewedAlbums lexC descC byKey at h
  constructor
  · by_contra hlt
    rw [not_le] at hlt
    have h1 : cmpL (lastViewedOf env u a.path) (lastViewedOf env u b.path)
        = .lt := by
      unfold cmpL
      rw [if_pos hlt]
    rw [h1] at h
    exact h rfl
  · intro heq
    have h1 : cmpL (lastViewedOf env u a.path) (lastViewedOf env u b.path)
        = .eq := by
      rw [cmpL_eq_iff]
      exact heq
    rw [h1] at h
    exact h

/-- **C7 (amended).** When the sort mode is `viewed_desc`, or `smart` with a
non-empty prefix, and a truthy user identity is present: if the
view-history query fails, the page is returned in its original order; a
page with no directory rows is likewise returned unchanged; and otherwise
the page is re-sorted so that the directory rows (a permutation of the
page's directories) come first ordered by the user's maximal recorded
`viewed_at` descending — directories with no recorded view counting as 0 —
with ties broken by the collator on names, followed by all media rows
sorted by the collator on names. -/
theorem c7_view_history_resort_amended (env : Env) (rows : List Row)
    (sort pfx : String) (u : String)
    (hmode : sort = "viewed_desc" ∨ (sort = "smart" ∧ pfx ≠ ""))
    (hu : u ≠ "")
    (hcoll : LawfulCmp (collCmp env.collator)) :
    (env.historyOk = false →
      processSorting env rows sort pfx (some u) = rows) ∧
    ((rows.filter (fun r => r.is_dir == 1)).isEmpty = true →
      processSorting env rows sort pfx (some u) = rows) ∧
    (env.historyOk = true →
      (rows.filter (fun r => r.is_dir == 1)).isEmpty = false →
      ∃ A M, processSorting env rows sort pfx (some u) = A ++ M ∧
        A.Perm (rows.filter (fun r => r.is_dir == 1)) ∧
        M.Perm (rows.filter (fun r => r.is_dir == 0)) ∧
        A.Pairwise (fun a b =>
          lastViewedOf env u b.path ≤ lastViewedOf env u a.path ∧
          (lastViewedOf env u a.path = lastViewedOf env u b.path →
            collCmp env.collator a.name b.name ≠ .gt)) ∧
        M.Pairwise (fun a b =>
          collCmp env.collator a.name b.name ≠ .gt)) := by
  have hneed : (sort == "viewed_desc" ||
      (sort == "smart" && decide (0 < pfx.length))) = true := by
    rcases hmode with h | ⟨h1, h2⟩
    · rw [h]
      rfl
    · subst h1
      have hd : pfx.data ≠ [] := by
        intro hh
        apply h2
        cases pfx with
        | mk d =>
            have hdd : d = [] := hh
            rw [hdd]
      have hlen : 0 < pfx.length := by
        have : 0 < pfx.data.length := List.length_pos.mpr hd
        exact this
      rw [Bool.or_eq_true, Bool.and_eq_true]
      right
      exact ⟨rfl, by rw [decide_eq_true_eq]; exact hlen⟩
  have huid : (u == "") = false := by
    rw [beq_eq_false_iff_ne]
    exact hu
  have hguard : (!(sort == "viewed_desc" ||
      (sort == "smart" && decide (0 < pfx.length))) ||
      (u == "")) = false := by
    rw [hneed, huid]
    rfl
  refine ⟨?_, ?_, ?_⟩
  · intro hhist
    simp only [processSorting, Option.getD_some]
    rw [hguard]
    simp only [Bool.false_eq_true, if_false]
    split
    · rfl
    · rw [hhist]
      rfl
  · intro hemp
    simp only [processSorting, Option.getD_some]
    rw [hguard]
    simp only [Bool.false_eq_true, if_false]
    rw [hemp]
    rfl
  · intro hhist hemp
    refine ⟨sortRows (cmpViewedAlbums env u)
        (rows.filter (fun r => r.is_dir == 1)),
      sortRows (cmpCollName env) (rows.filter (fun r => r.is_dir == 0)),
      ?_, ?_, ?_, ?_, ?_⟩
    · simp only [processSorting, Option.getD_some]
      rw [hguard]
      simp only [Bool.false_eq_true, if_false]
      rw [hemp, hhist]
      rfl
    · exact sortRows_perm _ _
    · exact sortRows_perm _ _
    · have hlaw : LawfulCmp (cmpViewedAlbums env u) :=
        lexC_lawful (descC_lawful (byKey_lawful cmpL_lawful))
          (byKey_lawful hcoll)
      have hpair := sortRows_pairwise hlaw
        (rows.filter (fun r => r.is_dir == 1))
      exact hpair.imp (fun h => cmpViewedAlbums_le_imp env u _ _ h)
    · have hlaw : LawfulCmp (cmpCollName env) := byKey_lawful hcoll
      have hpair := sortRows_pairwise hlaw
        (rows.filter (fun r => r.is_dir == 0))
      refine hpair.imp (fun h => ?_)
      rw [cmpLe_iff] at h
      exact h

/-- The baseline environment's collator is plain three-way string
comparison. -/
theorem collCmp_envBase_eq : collCmp envBase.collator = fun s t => cmpL s t := by
  funext s t
  have hc : envBase.collator s t =
      if s < t then -1 else if s = t then 0 else 1 := rfl
  unfold collCmp cmpL
  rw [hc]
  rcases lt_trichotomy s t with h | h | h
  · simp only [if_pos h]
    norm_num
  · subst h
    simp
  · have h1 : ¬ s < t := not_lt.mpr (le_of_lt h)
    have h2 : s ≠ t := ne_of_gt h
    simp only [if_neg h1, if_neg h2]
    norm_num

/-- Witness for C7's amended theorem: with the history store down, a
one-album page under `viewed_desc` is returned unchanged. -/
theorem c7_view_history_resort_amended_witness :
    processSorting { envBase with historyOk := false }
      [{ is_dir := 1, name := "d", path := "d", mtime := 1,
         width := none, height := none }]
      "viewed_desc" "" (some "u") =
      [{ is_dir := 1, name := "d", path := "d", mtime := 1,
         width := none, height := none }] := by
  have hcoll :
      LawfulCmp (collCmp ({ envBase with historyOk := false } : Env).collator) := by
    have heq : collCmp ({ envBase with historyOk := false } : Env).collator =
        fun s t => cmpL s t := collCmp_envBase_eq
    rw [heq]
    exact cmpL_lawful
  exact (c7_view_history_resort_amended { envBase with historyOk := false }
    [{ is_dir := 1, name := "d", path := "d", mtime := 1,
       width := none, height := none }]
    "viewed_desc" "" "u" (Or.inl rfl) (by decide) hcoll).1 rfl

theorem cmpOpt_some_some (c : α → α → Ordering) (x y : α) :
    cmpOpt c (some x) (some y) = c x y := rfl

theorem cmpOpt_none_none (c : α → α → Ordering) :
    cmpOpt c (none : Option α) none = .eq := rfl

theorem then_eq_right (o : Ordering) : o.then .eq = o := by
  cases o <;> rfl

theorem eq_swap_eq : Ordering.eq.swap = .eq := rfl

theorem cmpL_self [LinearOrder α] (a : α) : cmpL a a = .eq := by
  unfold cmpL
  rw [if_neg (lt_irrefl a), if_pos rfl]

theorem srb_media (d : Int) (r : Row) (h : r.is_dir = 0) :
    smartRecencyBucket d r = none := by
  unfold smartRecencyBucket
  rw [if_neg]
  omega

theorem srb_recent (d : Int) (r : Row) (h1 : r.is_dir = 1)
    (h2 : d < r.mtime) : smartRecencyBucket d r = some 0 := by
  unfold smartRecencyBucket
  rw [if_pos h1, if_pos h2]

theorem srb_old (d : Int) (r : Row) (h1 : r.is_dir = 1)
    (h2 : r.mtime ≤ d) : smartRecencyBucket d r = some 1 := by
  unfold smartRecencyBucket
  rw [if_pos h1, if_neg (not_lt.mpr h2)]

theorem srm_media (d : Int) (r : Row) (h : r.is_dir = 0) :
    smartRecentMtime d r = none := by
  unfold smartRecentMtime
  rw [if_neg]
  intro hc
  omega

theorem srm_recent (d : Int) (r : Row) (h1 : r.is_dir = 1)
    (h2 : d < r.mtime) : smartRecentMtime d r = some r.mtime := by
  unfold smartRecentMtime
  rw [if_pos ⟨h1, h2⟩]

theorem srm_old (d : Int) (r : Row) (_h1 : r.is_dir = 1)
    (h2 : r.mtime ≤ d) : smartRecentMtime d r = none := by
  unfold smartRecentMtime
  rw [if_neg]
  intro hc
  exact absurd hc.2 (not_lt.mpr h2)

theorem son_media (d : Int) (r : Row) (h : r.is_dir = 0) :
    smartOldName d r = none := by
  unfold smartOldName
  rw [if_neg]
  intro hc
  omega

theorem son_recent (d : Int) (r : Row) (_h1 : r.is_dir = 1)
    (h2 : d < r.mtime) : smartOldName d r = none := by
  unfold smartOldName
  rw [if_neg]
  intro hc
  exact absurd hc.2 (not_le.mpr h2)

theorem son_old (d : Int) (r : Row) (h1 : r.is_dir = 1)
    (h2 : r.mtime ≤ d) : smartOldName d r = some (strLower r.name) := by
  unfold smartOldName
  rw [if_pos ⟨h1, h2⟩]

theorem smn_media (r : Row) (h : r.is_dir = 0) :
    smartMediaName r = some (strLower r.name) := by
  unfold smartMediaName
  rw [if_pos h]

theorem smn_dir (r : Row) (h : r.is_dir = 1) :
    smartMediaName r = none := by
  unfold smartMediaName
  rw [if_neg]
  omega

/-- What the claim asserts between an earlier row `a` and a later row `b` of
a smart-sorted root listing: directories before media; recent directories
before stale ones; recent directories by `mtime` descending; stale
directories by case-folded name; media by case-folded name. -/
def smartRootOk (d : Int) (a b : Row) : Prop :=
  (a.is_dir = 0 → b.is_dir = 0) ∧
  (a.is_dir = 1 → b.is_dir = 1 →
    (a.mtime ≤ d → b.mtime ≤ d) ∧
    (d < a.mtime → d < b.mtime → b.mtime ≤ a.mtime) ∧
    (a.mtime ≤ d → b.mtime ≤ d →
      cmpStr (strLower a.name) (strLower b.name) ≠ .gt)) ∧
  (a.is_dir = 0 → b.is_dir = 0 →
    cmpStr (strLower a.name) (strLower b.name) ≠ .gt)

/-- The smart-root comparator's "may precede" relation implies the claimed
ordering, for union rows (`is_dir ∈ {0,1}`). -/
theorem cmpSmartRoot_le_imp (d : Int) (a b : Row)
    (ha : a.is_dir = 0 ∨ a.is_dir = 1) (hb : b.is_dir = 0 ∨ b.is_dir = 1)
    (h : cmpLe (cmpSmartRoot d) a b = true) : smartRootOk d a b := by
  rw [cmpLe_iff] at h
  unfold cmpSmartRoot cmpSmartTail lexC cmpIsDirDesc descC byKey at h
  beta_reduce at h
  rcases ha with ha | ha <;> rcases hb with hb | hb
  · -- media before media: the last smart key orders by folded name
    rw [ha, hb, srb_media d a ha, srb_media d b hb, srm_media d a ha,
      srm_media d b hb, son_media d a ha, son_media d b hb,
      smn_media a ha, smn_media b hb] at h
    simp only [cmpOpt_none_none, cmpOpt_some_some, cmpL_self, eq_swap_eq,
      then_eq_left] at h
    refine ⟨fun _ => hb, ?_, fun _ _ => h⟩
    intro h1
    rw [ha] at h1
    exact absurd h1 (by decide)
  · -- a media, b directory: impossible under is_dir DESC
    rw [ha, hb] at h
    have h01 : cmpL (0 : Nat) 1 = .lt := by decide
    rw [h01] at h
    exact absurd rfl h
  · -- a directory, b media: every clause is vacuous
    refine ⟨?_, ?_, ?_⟩
    · intro h0
      rw [ha] at h0
      exact absurd h0 (by decide)
    · intro _ hb1
      rw [hb] at hb1
      exact absurd hb1 (by decide)
    · intro h0
      rw [ha] at h0
      exact absurd h0 (by decide)
  · -- directory before directory
    rw [ha, hb] at h
    by_cases hra : d < a.mtime <;> by_cases hrb : d < b.mtime
    · -- both recent: mtime descending
      rw [srb_recent d a ha hra, srb_recent d b hb hrb,
        srm_recent d a ha hra, srm_recent d b hb hrb,
        son_recent d a ha hra, son_recent d b hb hrb,
        smn_dir a ha, smn_dir b hb] at h
      simp only [cmpOpt_none_none, cmpOpt_some_some, cmpL_self, eq_swap_eq,
        then_eq_left, then_eq_right] at h
      refine ⟨?_, ?_, ?_⟩
      · intro h0
        rw [ha] at h0
        exact absurd h0 (by decide)
      · intro _ _
        refine ⟨fun h1 => absurd h1 (not_le.mpr hra), fun _ _ => ?_,
          fun h1 => absurd h1 (not_le.mpr hra)⟩
        by_contra hlt
        rw [not_le] at hlt
        have hl : cmpL a.mtime b.mtime = .lt := by
          unfold cmpL
          rw [if_pos hlt]
        rw [hl] at h
        exact absurd rfl h
      · intro h0
        rw [ha] at h0
        exact absurd h0 (by decide)
    · -- a recent, b stale: nothing to show
      refine ⟨?_, ?_, ?_⟩
      · intro h0
        rw [ha] at h0
        exact absurd h0 (by decide)
      · intro _ _
        exact ⟨fun h1 => absurd h1 (not_le.mpr hra),
          fun _ h2 => absurd h2 hrb,
          fun h1 => absurd h1 (not_le.mpr hra)⟩
      · intro h0
        rw [ha] at h0
        exact absurd h0 (by decide)
    · -- a stale, b recent: impossible under the recency bucket
      rw [srb_old d a ha (not_lt.mp hra), srb_recent d b hb hrb] at h
      have h10 : cmpL (1 : Int) 0 = .gt := by decide
      simp only [cmpOpt_some_some, cmpL_self, eq_swap_eq, then_eq_left,
        h10] at h
      exact absurd rfl h
    · -- both stale: folded-name ascending
      rw [srb_old d a ha (not_lt.mp hra), srb_old d b hb (not_lt.mp hrb),
        srm_old d a ha (not_lt.mp hra), srm_old d b hb (not_lt.mp hrb),
        son_old d a ha (not_lt.mp hra), son_old d b hb (not_lt.mp hrb),
        smn_dir a ha, smn_dir b hb] at h
      simp only [cmpOpt_none_none, cmpOpt_some_some, cmpL_self, eq_swap_eq,
        then_eq_left, then_eq_right] at h
      refine ⟨?_, ?_, ?_⟩
      · intro h0
        rw [ha] at h0
        exact absurd h0 (by decide)
      · intro _ _
        exact ⟨fun _ => not_lt.mp hrb, fun h1 _ => absurd h1 hra,
          fun _ _ => h⟩
      · intro h0
        rw [ha] at h0
        exact absurd h0 (by decide)

theorem childUnionRows_is_dir (env : Env) (pfx : String) (r : Row)
    (h : r ∈ childUnionRows env pfx) : r.is_dir = 0 ∨ r.is_dir = 1 := by
  unfold childUnionRows at h
  rcases List.mem_append.mp h with h1 | h1
  · obtain ⟨i, hi, rfl⟩ := List.mem_map.mp h1
    exact Or.inr rfl
  · obtain ⟨i, hi, rfl⟩ := List.mem_map.mp h1
    exact Or.inl rfl

theorem cmpSmartRoot_lawful (d : Int) : LawfulCmp (cmpSmartRoot d) :=
  lexC_lawful (descC_lawful (byKey_lawful cmpL_lawful))
    (lexC_lawful (byKey_lawful (cmpOpt_lawful cmpL_lawful))
      (lexC_lawful (descC_lawful (byKey_lawful (cmpOpt_lawful cmpL_lawful)))
        (lexC_lawful (byKey_lawful (cmpOpt_lawful cmpStr_lawful))
          (byKey_lawful (cmpOpt_lawful cmpStr_lawful)))))

/-- **C6.** Under smart sort with the root prefix (empty string) and
home-recursive mode disabled, every page returned by
`getDirectChildrenFromDb` is ordered with directories before media; among
directories, those modified after the trailing recency cutoff (`dayAgo`)
come first ordered by `mtime` descending, directories at or before the
cutoff follow ordered by case-folded name ascending, and media rows are
ordered by case-folded name ascending. -/
theorem c6_smart_root_ordering (env : Env) (limit offset : Nat)
    (total : Nat) (rows : List Row)
    (hhome : env.homeShowSubdirs = false)
    (h : getDirectChildrenFromDb env "" "smart" limit offset =
      .ok (total, rows)) :
    rows.Pairwise (smartRootOk env.dayAgo) := by
  have hkey : getDirectChildrenFromDb env "" "smart" limit offset =
      .ok (qualifyingCount env "",
        ((sortRows
            (if env.homeShowSubdirs then cmpSmartHome env.dayAgo
             else cmpSmartRoot env.dayAgo)
          (childUnionRows env "")).drop offset).take limit) := rfl
  rw [hhome] at hkey
  simp only [Bool.false_eq_true, if_false] at hkey
  rw [hkey] at h
  have hrows : rows = ((sortRows (cmpSmartRoot env.dayAgo)
      (childUnionRows env "")).drop offset).take limit := by
    injection h with h1
    injection h1 with h2 h3
    exact h3.symm
  have hsorted := sortRows_pairwise (cmpSmartRoot_lawful env.dayAgo)
    (childUnionRows env "")
  have hperm := sortRows_perm (cmpSmartRoot env.dayAgo)
    (childUnionRows env "")
  have hok : (sortRows (cmpSmartRoot env.dayAgo)
      (childUnionRows env "")).Pairwise (smartRootOk env.dayAgo) := by
    refine List.Pairwise.imp_of_mem ?_ hsorted
    intro a b hma hmb hR
    exact cmpSmartRoot_le_imp env.dayAgo a b
      (childUnionRows_is_dir env "" a (hperm.mem_iff.mp hma))
      (childUnionRows_is_dir env "" b (hperm.mem_iff.mp hmb)) hR
  rw [hrows]
  exact hok.sublist ((List.take_sublist _ _).trans (List.drop_sublist _ _))

/-- `mergeSort` of a one-element list. -/
theorem mergeSort_singleton (le : α → α → Bool) (a : α) :
    [a].mergeSort le = [a] := by
  simp [List.mergeSort]

/-- A root-level album item for concrete listing scenarios. -/
def itemA : Item :=
  { path := "A", name := "A", type := "album", mtime := 5,
    width := none, height := none }

/-- An environment with one root album. -/
def cEnv6 : Env :=
  { envBase with items := [itemA] }

/-- Witness for C6: a concrete one-album root listing under smart sort is
returned and is smart-ordered. -/
theorem c6_smart_root_ordering_witness :
    getDirectChildrenFromDb cEnv6 "" "smart" 10 0 =
      .ok (1, [rowOf 1 itemA]) ∧
    [rowOf 1 itemA].Pairwise (smartRootOk cEnv6.dayAgo) := by
  have hrun : getDirectChildrenFromDb cEnv6 "" "smart" 10 0 =
      .ok (1, [rowOf 1 itemA]) := by
    show Except.ok (1,
      ((sortRows (cmpSmartRoot (0 : Int)) [rowOf 1 itemA]).drop 0).take 10) =
      Except.ok ((1 : Nat), [rowOf 1 itemA])
    unfold sortRows
    rw [mergeSort_singleton]
    rfl
  exact ⟨hrun,
    c6_smart_root_ordering cEnv6 10 0 1 [rowOf 1 itemA] rfl hrun⟩

/-- The union sub-query and the count query agree: albums plus media with
the same `WHERE` clause partition the typed rows. -/
theorem union_count_aux (w : Item → Bool) (l : List Item) :
    (l.filter (fun i => i.type == "album" && w i)).length +
    (l.filter (fun i => (i.type == "photo" || i.type == "video") && w i)).length =
    (l.filter (fun i => w i &&
      (i.type == "album" || i.type == "photo" || i.type == "video"))).length := by
  induction l with
  | nil => rfl
  | cons i rest ih =>
      simp only [List.filter_cons]
      by_cases hw : w i = true
      · by_cases ha : (i.type == "album") = true
        · have haeq : i.type = "album" := eq_of_beq ha
          have hp : (i.type == "photo") = false := by
            rw [beq_eq_false_iff_ne, haeq]
            decide
          have hv : (i.type == "video") = false := by
            rw [beq_eq_false_iff_ne, haeq]
            decide
          simp only [Bool.false_eq_true, hw, ha, hp, hv, Bool.and_true, Bool.true_and,
            Bool.false_or, Bool.false_and, Bool.or_false, Bool.true_or,
            if_true, if_false, List.length_cons, Bool.and_false]
          omega
        · have ha' : (i.type == "album") = false := by
            rw [Bool.eq_false_iff]
            exact ha
          by_cases hp : (i.type == "photo") = true
          · have hpeq : i.type = "photo" := eq_of_beq hp
            simp only [Bool.false_eq_true, hw, ha', hp, Bool.and_true, Bool.true_and,
              Bool.false_and, Bool.true_or, Bool.or_true, Bool.false_or,
              if_true, if_false, List.length_cons]
            omega
          · have hp' : (i.type == "photo") = false := by
              rw [Bool.eq_false_iff]
              exact hp
            by_cases hv : (i.type == "video") = true
            · simp only [Bool.false_eq_true, hw, ha', hp', hv, Bool.and_true, Bool.true_and,
                Bool.false_and, Bool.or_true, Bool.false_or, if_true,
                if_false, List.length_cons]
              omega
            · have hv' : (i.type == "video") = false := by
                rw [Bool.eq_false_iff]
                exact hv
              simp only [Bool.false_eq_true, hw, ha', hp', hv', Bool.and_true, Bool.true_and,
                Bool.false_and, Bool.false_or, Bool.or_self, Bool.and_false,
                if_false]
              exact ih
      · have hw' : w i = false := by
          rw [Bool.eq_false_iff]
          exact hw
        simp only [Bool.false_eq_true, hw', Bool.and_false, Bool.false_and, if_false]
        exact ih

/-- `childUnionRows` enumerates exactly the counted children. -/
theorem childUnionRows_length (env : Env) (pfx : String) :
    (childUnionRows env pfx).length = qualifyingCount env pfx := by
  unfold childUnionRows qualifyingCount
  rw [List.length_append, List.length_map, List.length_map]
  exact union_count_aux (childWhere env pfx) env.items

/-- Album-row and media-row filters partition a 0/1-`is_dir` row list. -/
theorem filter_is_dir_partition (rows : List Row)
    (h01 : ∀ r ∈ rows, r.is_dir = 0 ∨ r.is_dir = 1) :
    (rows.filter (fun r => r.is_dir == 1)).length +
    (rows.filter (fun r => r.is_dir == 0)).length = rows.length := by
  induction rows with
  | nil => rfl
  | cons r rest ih =>
      have hr := h01 r (List.mem_cons_self r rest)
      have hrest := fun x hx => h01 x (List.mem_cons_of_mem r hx)
      simp only [List.filter_cons]
      rcases hr with h0 | h1
      · have e1 : (r.is_dir == 1) = false := by
          rw [beq_eq_false_iff_ne, h0]
          decide
        have e0 : (r.is_dir == 0) = true := by
          rw [beq_iff_eq]
          exact h0
        simp only [Bool.false_eq_true, e1, e0, if_true, if_false, List.length_cons]
        rw [← ih hrest]
        omega
      · have e1 : (r.is_dir == 1) = true := by
          rw [beq_iff_eq]
          exact h1
        have e0 : (r.is_dir == 0) = false := by
          rw [beq_eq_false_iff_ne, h1]
          decide
        simp only [Bool.false_eq_true, e1, e0, if_true, if_false, List.length_cons]
        rw [← ih hrest]
        omega

/-- `processSorting` never changes the page's length. -/
theorem processSorting_length (env : Env) (rows : List Row)
    (sort pfx : String) (userId : Option String)
    (h01 : ∀ r ∈ rows, r.is_dir = 0 ∨ r.is_dir = 1) :
    (processSorting env rows sort pfx userId).length = rows.length := by
  simp only [processSorting]
  split
  · rfl
  · split
    · rfl
    · split
      · rfl
      · rw [List.length_append]
        unfold sortRows
        rw [List.length_mergeSort, List.length_mergeSort]
        exact filter_is_dir_partition rows h01

/-- The code's `Math.ceil(total/limit) || 1` equals ceiling with minimum 1. -/
theorem ifzero_eq_max (x : Nat) :
    (if x = 0 then 1 else x) = max 1 x := by
  by_cases h : x = 0
  · subst h
    rfl
  · rw [if_neg h]
    omega

/-- Summing the page sizes `min limit (N - p·limit)` over all
`⌈N/limit⌉` pages yields `N`. -/
theorem pages_sum (limit : Nat) (hl : 1 ≤ limit) :
    ∀ N : Nat,
      (∑ p ∈ Finset.range ((N + limit - 1) / limit),
        min limit (N - p * limit)) = N := by
  intro N
  induction N using Nat.strong_induction_on with
  | _ N ih =>
      by_cases h0 : N = 0
      · subst h0
        have hz : (0 + limit - 1) / limit = 0 := Nat.div_eq_of_lt (by omega)
        rw [hz]
        simp
      · by_cases hle : N ≤ limit
        · have hceil : (N + limit - 1) / limit = 1 := by
            apply Nat.div_eq_of_lt_le
            · omega
            · omega
          rw [hceil, Finset.sum_range_one, Nat.zero_mul, Nat.sub_zero]
          exact min_eq_right hle
        · push_neg at hle
          have hceil : (N + limit - 1) / limit =
              (N - limit + limit - 1) / limit + 1 := by
            have h1 : N + limit - 1 = (N - limit + limit - 1) + limit := by
              omega
            rw [h1, Nat.add_div_right _ (by omega)]
          rw [hceil, Finset.sum_range_succ']
          have hstep : ∀ p, min limit (N - (p + 1) * limit) =
              min limit ((N - limit) - p * limit) := by
            intro p
            congr 1
            have hmul : (p + 1) * limit = p * limit + limit := by
              ring
            omega
          rw [Finset.sum_congr rfl (fun p _ => hstep p),
            ih (N - limit) (by omega), Nat.zero_mul, Nat.sub_zero,
            min_eq_left (le_of_lt hle)]
          omega

/-- The only rejected `ORDER BY` is `name_asc` in home-recursive mode. -/
theorem orderCmpFor_none_imp (sort : String) (hm ir : Bool) (d : Int)
    (h : orderCmpFor sort hm ir d = none) :
    sort = "name_asc" ∧ hm = true := by
  unfold orderCmpFor at h
  split at h
  · cases hm with
    | false => simp at h
    | true => exact ⟨rfl, rfl⟩
  · cases hm with
    | false => simp at h
    | true => simp at h
  · simp at h
  · simp at h
  · simp at h
  · simp at h

/-- The number of items on one page of the listing (0 for a thrown
request). -/
def pageItemsLen (env : Env) (pfx : String) (limit : Nat)
    (userId : Option String) (sort : String) (page : Nat) : Nat :=
  match getDirectoryContents env pfx page limit userId sort with
  | .ok res => res.items.length
  | .error _ => 0

/-- Every row of a sorted page of the union query is an album or media
row. -/
theorem pageRows_is_dir (env : Env) (pfx : String)
    (c : Row → Row → Ordering) (limit offset : Nat) :
    ∀ r ∈ ((sortRows c (childUnionRows env pfx)).drop offset).take limit,
      r.is_dir = 0 ∨ r.is_dir = 1 := by
  intro r hr
  have h1 : r ∈ sortRows c (childUnionRows env pfx) :=
    ((List.take_sublist _ _).trans (List.drop_sublist _ _)).subset hr
  exact childUnionRows_is_dir env pfx r
    ((sortRows_perm c (childUnionRows env pfx)).mem_iff.mp h1)

/-- The result shape of `getDirectoryContents` on a valid, in-range page. -/
theorem c5_page_shape (env : Env) (pfx : String) (limit page : Nat)
    (userId : Option String) (sort : String) (c : Row → Row → Ordering)
    (hsafe : env.isPathSafe pfx = true)
    (hdir : env.statIsDir (pathJoin env.photosDir pfx) = true)
    (hlimit : 1 ≤ limit) (hpage : 1 ≤ page)
    (hc : orderCmpFor sort (decide (toSlash pfx = "") && env.homeShowSubdirs)
      (decide (toSlash pfx = "")) env.dayAgo = some c)
    (hrange : page ≤
      max 1 ((qualifyingCount env (toSlash pfx) + limit - 1) / limit)) :
    ∃ res, getDirectoryContents env pfx page limit userId sort = .ok res ∧
      res.totalResults = qualifyingCount env (toSlash pfx) ∧
      res.totalPages =
        max 1 ((qualifyingCount env (toSlash pfx) + limit - 1) / limit) ∧
      res.items.length =
        min limit (qualifyingCount env (toSlash pfx) - (page - 1) * limit) := by
  have hquery : getDirectChildrenFromDb env pfx sort limit
      ((page - 1) * limit) =
      .ok (qualifyingCount env (toSlash pfx),
        ((sortRows c (childUnionRows env (toSlash pfx))).drop
          ((page - 1) * limit)).take limit) := by
    simp only [getDirectChildrenFromDb]
    rw [hc]
  have hstart : getDirectoryContents env pfx page limit userId sort =
      (if qualifyingCount env (toSlash pfx) = 0 ∨
          (((sortRows c (childUnionRows env (toSlash pfx))).drop
            ((page - 1) * limit)).take limit).isEmpty = true then
        Except.ok { items := [], totalPages := 1, totalResults := 0 }
      else
        let rowsEffective := processSorting env
          (((sortRows c (childUnionRows env (toSlash pfx))).drop
            ((page - 1) * limit)).take limit) sort pfx userId
        let hlsSet := processHlsStatus env rowsEffective
        let coversMap := processAlbumCovers env rowsEffective
        Except.ok { items := buildItems env rowsEffective hlsSet coversMap,
                    totalPages :=
                      if (qualifyingCount env (toSlash pfx) + limit - 1) /
                          limit = 0 then 1
                      else (qualifyingCount env (toSlash pfx) + limit - 1) /
                        limit,
                    totalResults := qualifyingCount env (toSlash pfx) }) := by
    simp only [getDirectoryContents, validateDirectory, hsafe, hdir,
      Bool.not_true, Bool.false_eq_true, if_false, if_true, hquery]
  by_cases h0 : qualifyingCount env (toSlash pfx) = 0
  · have htp : (qualifyingCount env (toSlash pfx) + limit - 1) / limit = 0 := by
      rw [h0]
      exact Nat.div_eq_of_lt (by omega)
    refine ⟨{ items := [], totalPages := 1, totalResults := 0 }, ?_, ?_, ?_, ?_⟩
    · rw [hstart, if_pos (Or.inl h0)]
    · rw [h0]
    · rw [htp]
      simp
    · rw [h0]
      simp
  · have hNpos : 1 ≤ qualifyingCount env (toSlash pfx) := by omega
    have hceil1 : 1 ≤ (qualifyingCount env (toSlash pfx) + limit - 1) / limit := by
      rw [Nat.le_div_iff_mul_le (by omega)]
      omega
    have htpmax : max 1 ((qualifyingCount env (toSlash pfx) + limit - 1) / limit) =
        (qualifyingCount env (toSlash pfx) + limit - 1) / limit :=
      max_eq_right hceil1
    have hrange' : page ≤ (qualifyingCount env (toSlash pfx) + limit - 1) / limit := by
      rw [htpmax] at hrange
      exact hrange
    have hofflt : (page - 1) * limit < qualifyingCount env (toSlash pfx) := by
      have hmul1 : ((qualifyingCount env (toSlash pfx) + limit - 1) / limit) * limit ≤
          qualifyingCount env (toSlash pfx) + limit - 1 :=
        Nat.div_mul_le_self _ _
      have hmul2 : (page - 1) * limit ≤
          (((qualifyingCount env (toSlash pfx) + limit - 1) / limit) - 1) * limit :=
        Nat.mul_le_mul_right _ (by omega)
      have hsub : (((qualifyingCount env (toSlash pfx) + limit - 1) / limit) - 1) * limit =
          ((qualifyingCount env (toSlash pfx) + limit - 1) / limit) * limit - limit := by
        rw [Nat.sub_mul, Nat.one_mul]
      omega
    have hlen : (((sortRows c (childUnionRows env (toSlash pfx))).drop
        ((page - 1) * limit)).take limit).length =
        min limit (qualifyingCount env (toSlash pfx) - (page - 1) * limit) := by
      rw [List.length_take, List.length_drop]
      unfold sortRows
      rw [List.length_mergeSort, childUnionRows_length]
    have hlenpos : 1 ≤ (((sortRows c (childUnionRows env (toSlash pfx))).drop
        ((page - 1) * limit)).take limit).length := by
      rw [hlen]
      omega
    have hempty : (((sortRows c (childUnionRows env (toSlash pfx))).drop
        ((page - 1) * limit)).take limit).isEmpty = false := by
      cases hrows : ((sortRows c (childUnionRows env (toSlash pfx))).drop
          ((page - 1) * limit)).take limit with
      | nil =>
          rw [hrows] at hlenpos
          simp at hlenpos
      | cons x xs => rfl
    have hcond : ¬(qualifyingCount env (toSlash pfx) = 0 ∨
        (((sortRows c (childUnionRows env (toSlash pfx))).drop
          ((page - 1) * limit)).take limit).isEmpty = true) := by
      intro hcon
      rcases hcon with h1 | h1
      · exact h0 h1
      · rw [hempty] at h1
        exact absurd h1 (by decide)
    refine ⟨⟨buildItems env
        (processSorting env
          (((sortRows c (childUnionRows env (toSlash pfx))).drop
            ((page - 1) * limit)).take limit) sort pfx userId)
        (processHlsStatus env
          (processSorting env
            (((sortRows c (childUnionRows env (toSlash pfx))).drop
              ((page - 1) * limit)).take limit) sort pfx userId))
        (processAlbumCovers env
          (processSorting env
            (((sortRows c (childUnionRows env (toSlash pfx))).drop
              ((page - 1) * limit)).take limit) sort pfx userId)),
      (if (qualifyingCount env (toSlash pfx) + limit - 1) / limit = 0
        then 1
        else (qualifyingCount env (toSlash pfx) + limit - 1) / limit),
      qualifyingCount env (toSlash pfx)⟩, ?_, ?_, ?_, ?_⟩
    · rw [hstart]
      exact if_neg hcond
    · rfl
    · show (if (qualifyingCount env (toSlash pfx) + limit - 1) / limit = 0
          then 1
          else (qualifyingCount env (toSlash pfx) + limit - 1) / limit) =
        max 1 ((qualifyingCount env (toSlash pfx) + limit - 1) / limit)
      exact ifzero_eq_max _
    · show (buildItems env _ _ _).length = _
      unfold buildItems
      rw [List.length_map]
      rw [processSorting_length env _ sort pfx userId
        (pageRows_is_dir env (toSlash pfx) c limit ((page - 1) * limit))]
      exact hlen

set_option maxHeartbeats 1000000 in
/-- **C5.** For every prefix with `N` qualifying children and every page
size `≥ 1` (and any sort mode whose query the database accepts): every page
`1 ≤ page ≤ totalPages` of `getDirectoryContents` reports
`totalResults = N` and `totalPages = ⌈N / pageSize⌉` with a minimum of 1,
and the page item counts summed over all pages equal `N`. -/
theorem c5_pagination_totals (env : Env) (pfx : String) (limit : Nat)
    (userId : Option String) (sort : String)
    (hsafe : env.isPathSafe pfx = true)
    (hdir : env.statIsDir (pathJoin env.photosDir pfx) = true)
    (hlimit : 1 ≤ limit)
    (hsql : ¬ (sort = "name_asc" ∧
      (decide (toSlash pfx = "") && env.homeShowSubdirs) = true)) :
    (∀ page, 1 ≤ page →
      page ≤ max 1 ((qualifyingCount env (toSlash pfx) + limit - 1) / limit) →
      ∃ res, getDirectoryContents env pfx page limit userId sort = .ok res ∧
        res.totalResults = qualifyingCount env (toSlash pfx) ∧
        res.totalPages =
          max 1 ((qualifyingCount env (toSlash pfx) + limit - 1) / limit) ∧
        res.items.length =
          min limit (qualifyingCount env (toSlash pfx) - (page - 1) * limit)) ∧
    (∑ p ∈ Finset.range
        (max 1 ((qualifyingCount env (toSlash pfx) + limit - 1) / limit)),
      pageItemsLen env pfx limit userId sort (p + 1)) =
      qualifyingCount env (toSlash pfx) := by
  cases hc : orderCmpFor sort
      (decide (toSlash pfx = "") && env.homeShowSubdirs)
      (decide (toSlash pfx = "")) env.dayAgo with
  | none =>
      obtain ⟨h1, h2⟩ := orderCmpFor_none_imp _ _ _ _ hc
      exact absurd ⟨h1, h2⟩ hsql
  | some c =>
      have hpageShape := fun page hp hr =>
        c5_page_shape env pfx limit page userId sort c hsafe hdir hlimit hp
          hc hr
      refine ⟨hpageShape, ?_⟩
      have hterm : ∀ p ∈ Finset.range
          (max 1 ((qualifyingCount env (toSlash pfx) + limit - 1) / limit)),
          pageItemsLen env pfx limit userId sort (p + 1) =
          min limit (qualifyingCount env (toSlash pfx) - p * limit) := by
        intro p hp
        rw [Finset.mem_range] at hp
        obtain ⟨res, hres, _, _, hlen⟩ := hpageShape (p + 1) (by omega)
          (by omega)
        unfold pageItemsLen
        rw [hres]
        show res.items.length = _
        rw [hlen]
        simp only [Nat.add_sub_cancel]
      rw [Finset.sum_congr rfl hterm]
      by_cases h0 : qualifyingCount env (toSlash pfx) = 0
      · rw [h0]
        have htp : (0 + limit - 1) / limit = 0 := Nat.div_eq_of_lt (by omega)
        rw [htp]
        simp
      · have hceil1 : 1 ≤ (qualifyingCount env (toSlash pfx) + limit - 1) / limit := by
          rw [Nat.le_div_iff_mul_le (by omega)]
          omega
        rw [max_eq_right hceil1]
        exact pages_sum limit hlimit (qualifyingCount env (toSlash pfx))

/-- Witness for C5: the one-album environment, page size 1, page 1. -/
theorem c5_pagination_totals_witness :
    ∃ res, getDirectoryContents cEnv6 "" 1 1 none "smart" = .ok res ∧
      res.totalResults = qualifyingCount cEnv6 (toSlash "") ∧
      res.totalPages =
        max 1 ((qualifyingCount cEnv6 (toSlash "") + 1 - 1) / 1) ∧
      res.items.length =
        min 1 (qualifyingCount cEnv6 (toSlash "") - (1 - 1) * 1) :=
  (c5_pagination_totals cEnv6 "" 1 none "smart" rfl rfl (by decide)
    (by decide)).1 1 (by decide) (by decide)
